import Mathlib

/-!
# Verification of the DTDX tokenizing core (dtdx repository)

Shallow embedding of the generic lexer engine (`internal/lexer/lexer.go`,
present as `src/unnamed/part_001`) and the DTDX scanner
(`internal/parser/scanner.go`).

Modelling conventions:
* Go strings are modelled as `List Char` (Unicode scalar values).  All cursor
  movement in the source happens one decoded rune at a time, so rune indices
  stand in for byte offsets; every slice taken by the code is at a rune
  boundary.
* A Go `panic` is modelled as an `Option`/outcome value: `none` (or the
  `panicked` outcome) marks the branch where the Go program would panic.
* The producer goroutine streams tokens over a channel; a run of the state
  graph is modelled as the finite list of tokens it emits, in emission order,
  together with an outcome (normal halt, error halt, panic, or out of fuel).
  The fuel argument bounds the number of state-function invocations only;
  claims never depend on a run exhausting it.
* Internal scanner loops carry an explicit gas argument initialized with the
  cursor measure `Lex.m`; the gas never runs out before the loop's own exit
  condition (when it would, the cursor is in exactly the state where `Next`
  panics in Go, and both paths return `none`).
-/

namespace Dtdx

/-- Go `lexer.TokenType` (an `int`). -/
abbrev TokenType := Int

/-- Go `lexer.ErrorTok = TokenType(-1)`: reserved error token type. -/
def ErrorTok : TokenType := -1

/-- Token types of the DTDX scanner, `scanner.go` (iota starting at 1). -/
def indentTok : TokenType := 1

/-- `dedentTok`: decreased whitespace at start of line. -/
def dedentTok : TokenType := 2

/-- `equalsTok`: `=`. -/
def equalsTok : TokenType := 3

/-- `openTok`: `(`. -/
def openTok : TokenType := 4

/-- `closeTok`: `)`. -/
def closeTok : TokenType := 5

/-- `separatorTok`: `,` or `|` or `&`. -/
def separatorTok : TokenType := 6

/-- `multiplicityTok`: `*` or `+` or `?`. -/
def multiplicityTok : TokenType := 7

/-- `identTok`: identifier. -/
def identTok : TokenType := 8

/-- `quoteTok`: quoted value. -/
def quoteTok : TokenType := 9

/-- `referenceTok`: `...`. -/
def referenceTok : TokenType := 10

/-- `directiveTok`: `#VALUE`. -/
def directiveTok : TokenType := 11

/-- `commentTok`: `# value`. -/
def commentTok : TokenType := 12

/-- `eofTok`: signals end of input. -/
def eofTok : TokenType := 13

/-- Go `lexer.Token`: a type together with a slice of the input (or, for the
error token, a diagnostic message). -/
structure Token where
  type : TokenType
  value : String
deriving DecidableEq, Repr

/-- Go `lexer.EOFRune rune = 0`: pseudo-rune signaling the end of the input
string.  Note that this is U+0000, a valid Unicode scalar value, identical to
a literal NUL character decoded from the source. -/
def EOFRune : Char := '\x00'

/-- The cursor fields of Go `lexer.Lex`: immutable source, the start of the
pending token, the next unread position, and the end-of-file flag.  The token
channel is modelled by the run function's output list; the opaque `State` slot
(the indent stack) is threaded separately through the scanner configuration. -/
structure Lex where
  source : List Char
  start : Nat
  position : Nat
  atEOF : Bool
deriving DecidableEq, Repr

namespace Lex

/-- Go `Current`: the substring `source[start:position]`. -/
def current (l : Lex) : List Char :=
  (l.source.drop l.start).take (l.position - l.start)

/-- Go `Ignore`: `start = position`. -/
def ignore (l : Lex) : Lex :=
  { l with start := l.position }

/-- Go `Next`: decode the next rune.  With no input left, returns the
`EOFRune` sentinel and sets `atEOF`, unless `atEOF` was already set, in which
case Go panics ("Next attempted to move past end of source.") — modelled as
`none`. -/
def next (l : Lex) : Option (Char × Lex) :=
  match l.source.get? l.position with
  | none =>
      if l.atEOF then none
      else some (EOFRune, { l with atEOF := true })
  | some c => some (c, { l with position := l.position + 1 })

/-- Go `Backup`: clear `atEOF` if set; otherwise move back one rune unless
nothing is pending (`source[start:position]` empty). -/
def backup (l : Lex) : Lex :=
  if l.atEOF then { l with atEOF := false }
  else if l.start < l.position then { l with position := l.position - 1 }
  else l

/-- Go `Peek`: `Next` immediately followed by `Backup`, returning the rune. -/
def peek (l : Lex) : Option (Char × Lex) :=
  (l.next).map (fun p => (p.1, p.2.backup))

/-- Go `LookingAt`: does the unread source start with the given text? -/
def lookingAt (pfx : List Char) (l : Lex) : Bool :=
  (l.source.drop l.position).take pfx.length == pfx

/-- Gas measure for the cursor: every successful `next` strictly decreases it
(consuming a rune, or flipping `atEOF` on).  Loops driven by `next` terminate
within `m` iterations. -/
def m (l : Lex) : Nat :=
  (l.source.length + 1 - l.position) + (cond l.atEOF 0 1)

end Lex

/-- Loop body of Go `AcceptRun` with explicit gas (`gas = l.m` at call sites
never runs out; see `Lex.m`): consume a maximal run of runes from `chars`,
then back up once. -/
def acceptRunGas (chars : List Char) : Nat → Lex → Option Lex
  | 0, _ => none
  | gas + 1, l =>
    match l.next with
    | none => none
    | some (r, l') => if r ∈ chars then acceptRunGas chars gas l' else some l'.backup

/-- Go `AcceptRun`: consumes any sequence of runes that appear in `chars`. -/
def Lex.acceptRun (chars : List Char) (l : Lex) : Option Lex :=
  acceptRunGas chars l.m l

/-- Loop body of Go `AcceptTo` with explicit gas: consume runes until one is
found in `chars` extended with newline and NUL, then back up once. -/
def acceptToGas (chars : List Char) : Nat → Lex → Option Lex
  | 0, _ => none
  | gas + 1, l =>
    match l.next with
    | none => none
    | some (r, l') =>
      if r ∈ '\n' :: '\x00' :: chars then some l'.backup else acceptToGas chars gas l'

/-- Go `AcceptTo`: accepts runes not found in `chars` until the line (or the
input) ends; the stop set is `chars + "\n\x00"`. -/
def Lex.acceptTo (chars : List Char) (l : Lex) : Option Lex :=
  acceptToGas chars l.m l

/-- Go `measure` (scanner.go): column width of a leading-whitespace string;
a space adds 1, a tab advances the width to the next multiple of 4.  Any
other rune makes Go panic ("Bad rune found in indent") — modelled by `none`. -/
def measure : Nat → List Char → Option Nat
  | width, [] => some width
  | width, c :: rest =>
    if c = ' ' then measure (width + 1) rest
    else if c = '\t' then measure (width + (4 - width % 4)) rest
    else none

/-- Go `isAlphaNumeric` (scanner.go): `r == '_' || unicode.IsLetter(r) ||
unicode.IsDigit(r)`.  Go's predicates cover all Unicode letter/digit
categories; this embedding uses the ASCII classes (`Char.isAlpha`,
`Char.isDigit`).  No claim settled in this file depends on which non-ASCII
runes count as letters: every concrete input is ASCII, and the universal
theorems are insensitive to how the identifier-versus-error dispatch
classifies individual runes. -/
def isAlphaNumeric (r : Char) : Bool :=
  r = '_' || r.isAlpha || r.isDigit

/-- The letter test of `OuterState`'s default branch:
`unicode.IsLetter(r) || r == '_' || r == ':'` (same ASCII approximation as
`isAlphaNumeric`). -/
def isOuterLetter (r : Char) : Bool :=
  r.isAlpha || r = '_' || r = ':'

/-- Go `const uppercase = "ABCDEFGHIJKLMNOPQRSTUVWXYZ"`. -/
def uppercaseChars : List Char :=
  "ABCDEFGHIJKLMNOPQRSTUVWXYZ".data

/-- The named states of the DTDX scanner state graph. -/
inductive SState where
  | newline
  | outer
  | dquote
  | squote
  | refState
  | directive
  | comment
  | identifier
deriving DecidableEq, Repr

/-- A scanner configuration: the cursor plus the lexer-owned `State` slot
holding the indent stack.  `none` models the slot before `updateIndent`'s
lazy initialization.  The stack is kept top-first (Go keeps the top at the
end of the slice; reversing the representation changes nothing observable). -/
structure Cfg where
  lex : Lex
  stack : Option (List Nat)
deriving DecidableEq, Repr

/-- Result of executing one state function: transition to a next state
emitting tokens, stop (normally with the final stack recorded, or through
`Errorf`), or panic. -/
inductive StepOut where
  | cont (s : SState) (c : Cfg) (ts : List Token)
  | stop (ts : List Token) (stF : Option (List Nat)) (isErr : Bool)
  | panicStep (msg : String) (ts : List Token)
deriving DecidableEq, Repr

/-- Result of Go `updateIndent`: go on to `OuterState` with the updated
cursor/stack having emitted `ts`, terminate through `Errorf`, or panic. -/
inductive UIOut where
  | ok (l : Lex) (st : List Nat) (ts : List Token)
  | err (ts : List Token) (msg : String)
  | panicUI (ts : List Token) (msg : String)
deriving DecidableEq, Repr

/-- Go `Emit`: build a token from `Current()` and the type, then `Ignore`.
(The send on the channel is the emission into the output list.) -/
def emitT (l : Lex) (t : TokenType) : Lex × Token :=
  (l.ignore, { type := t, value := String.mk l.current })

/-- The message of the panic in Go `Next`. -/
def nextPanicMsg : String := "Next attempted to move past end of source."

/-- The message of the panic in Go `measure`. -/
def measurePanicMsg : String := "Bad rune found in indent"

/-- The message of a Go runtime slice-index panic (`indents[len(indents)-2]`
with fewer than two entries, or reading the top of an empty stack). -/
def indexPanicMsg : String := "runtime error: index out of range"

/-- The dedent loop of Go `updateIndent`:
`for size < peek { Emit(dedent); peek, indents = indents[len-2], indents[:len-1] }`.
The stack is top-first, so reading `indents[len-2]` and truncating is reading
the second entry and dropping the head; with fewer than two entries Go's index
expression panics (`none`).  Returns the cursor, the remaining stack, the
final `peek`, and the emitted dedent tokens. -/
def dedentLoop (size : Nat) : Lex → List Nat → List Token →
    Option (Lex × List Nat × Nat × List Token)
  | _, [], _ => none
  | l, peek :: rest, acc =>
    if size < peek then
      match rest with
      | [] => none
      | peek' :: rest' =>
        let (l', tok) := emitT l dedentTok
        dedentLoop size l' (peek' :: rest') (acc ++ [tok])
    else some (l, peek :: rest, peek, acc)

/-- Go `updateIndent`: lazily initialize the indent stack to `{0}`, measure
the pending whitespace, and compare with the stack top: equal drops it,
greater pushes and emits one indent token, less pops emitting one dedent
token per pop and fails with the inconsistent-dedent error if the final top
does not equal the new width. -/
def updateIndent (l : Lex) (st : Option (List Nat)) : UIOut :=
  let indents := st.getD [0]
  match measure 0 l.current with
  | none => .panicUI [] measurePanicMsg
  | some size =>
    match indents with
    | [] => .panicUI [] indexPanicMsg
    | peek :: rest =>
      if size = peek then .ok l.ignore (peek :: rest) []
      else if size > peek then
        let (l', tok) := emitT l indentTok
        .ok l' (size :: peek :: rest) [tok]
      else
        match dedentLoop size l (peek :: rest) [] with
        | none => .panicUI [] indexPanicMsg
        | some (l', stk', peek', ts) =>
          if peek' < size then
            .err ts ("Inconsistent dedent. Expecting " ++ toString peek' ++
              " but found " ++ toString size ++ ".")
          else .ok l' stk' ts

/-- The dispatch loop of Go `OuterState`, with explicit gas (`gas = l.m` at
the call site): skip spaces and tabs, emit single-character tokens inline,
transition to the sub-scanning states, and at the end-of-input sentinel run
the final indentation measurement and emit `eofTok`.  A literal NUL in the
source matches the `EOFRune` case exactly as in Go. -/
def outerLoop (st : Option (List Nat)) : Nat → Lex → List Token → StepOut
  | 0, _, acc => .panicStep nextPanicMsg acc
  | gas + 1, l, acc =>
    match l.next with
    | none => .panicStep nextPanicMsg acc
    | some (r, l') =>
      if r = ' ' ∨ r = '\t' then outerLoop st gas l'.ignore acc
      else if r = '\n' then .cont .newline ⟨l', st⟩ acc
      else if r = '=' then
        let (l'', t) := emitT l' equalsTok
        outerLoop st gas l'' (acc ++ [t])
      else if r = '(' then
        let (l'', t) := emitT l' openTok
        outerLoop st gas l'' (acc ++ [t])
      else if r = ')' then
        let (l'', t) := emitT l' closeTok
        outerLoop st gas l'' (acc ++ [t])
      else if r = ',' ∨ r = '|' ∨ r = '&' then
        let (l'', t) := emitT l' separatorTok
        outerLoop st gas l'' (acc ++ [t])
      else if r = '*' ∨ r = '+' ∨ r = '?' then
        let (l'', t) := emitT l' multiplicityTok
        outerLoop st gas l'' (acc ++ [t])
      else if r = '"' then .cont .dquote ⟨l', st⟩ acc
      else if r = '\'' then .cont .squote ⟨l', st⟩ acc
      else if r = '.' then .cont .refState ⟨l', st⟩ acc
      else if r = '#' then
        match l'.peek with
        | none => .panicStep nextPanicMsg acc
        | some (r2, l'') =>
          if 'A' ≤ r2 ∧ r2 ≤ 'Z' then .cont .directive ⟨l'', st⟩ acc
          else .cont .comment ⟨l'', st⟩ acc
      else if r = EOFRune then
        match updateIndent l' st with
        | .ok l'' st' ts =>
          let (_, t) := emitT l'' eofTok
          .stop (acc ++ ts ++ [t]) (some st') false
        | .err ts msg => .stop (acc ++ ts ++ [⟨ErrorTok, msg⟩]) st true
        | .panicUI ts msg => .panicStep msg (acc ++ ts)
      else if isOuterLetter r then .cont .identifier ⟨l', st⟩ acc
      else
        .stop (acc ++ [⟨ErrorTok,
          "Unexpected unicode character (" ++ goCharFormat r ++ ") in outer context."⟩])
          st true
where
  /-- Rendering of Go's `%#U` verb: `U+` and the code point in hex (at least
  four digits).  Go additionally appends the quoted character; no claim
  depends on this message's exact text. -/
  goCharFormat (r : Char) : String :=
    "U+" ++ (Nat.toDigits 16 r.toNat).asString.toUpper

/-- The loop of Go `IdentifierState`, with explicit gas: consume runes while
`isAlphaNumeric`, then back up once. -/
def identLoop : Nat → Lex → Option Lex
  | 0, _ => none
  | gas + 1, l =>
    match l.next with
    | none => none
    | some (r, l') => if isAlphaNumeric r then identLoop gas l' else some l'.backup

/-- Go `quoteHelper`: drop the opening delimiter, consume up to the matching
delimiter (or newline/NUL/end of input), and either emit the quote token and
skip the closing delimiter, or terminate with the runaway-quote error. -/
def quoteHelper (l : Lex) (st : Option (List Nat)) (q : Char) : StepOut :=
  let l0 := l.ignore
  match l0.acceptTo [q] with
  | none => .panicStep nextPanicMsg []
  | some l1 =>
    if l1.lookingAt [q] then
      let (l2, tok) := emitT l1 quoteTok
      match l2.next with
      | none => .panicStep nextPanicMsg [tok]
      | some (_, l3) => .cont .outer ⟨l3, st⟩ [tok]
    else .stop [⟨ErrorTok, "Runaway quote: " ++ String.mk l1.current⟩] st true

/-- One state-function invocation of the DTDX scanner (`scanner.go`):
`NewlineState`, `OuterState`, the two quote states, `ReferenceState`,
`DirectiveState`, `CommentState` and `IdentifierState`. -/
def step : SState → Cfg → StepOut
  | .newline, ⟨l, st⟩ =>
    -- NewlineState: drop the newline, consume leading whitespace, skip blank
    -- lines by returning to NewlineState, otherwise run updateIndent.
    let l0 := l.ignore
    match l0.acceptRun ['\t', ' '] with
    | none => .panicStep nextPanicMsg []
    | some l1 =>
      if l1.lookingAt ['\n'] then
        match l1.next with
        | none => .panicStep nextPanicMsg []
        | some (_, l2) => .cont .newline ⟨l2, st⟩ []
      else
        match updateIndent l1 st with
        | .ok l2 st' ts => .cont .outer ⟨l2, some st'⟩ ts
        | .err ts msg => .stop (ts ++ [⟨ErrorTok, msg⟩]) st true
        | .panicUI ts msg => .panicStep msg ts
  | .outer, ⟨l, st⟩ => outerLoop st l.m l []
  | .dquote, ⟨l, st⟩ => quoteHelper l st '"'
  | .squote, ⟨l, st⟩ => quoteHelper l st '\''
  | .refState, ⟨l, st⟩ =>
    -- ReferenceState: consume the run of dots; exactly "..." is a reference.
    match l.acceptRun ['.'] with
    | none => .panicStep nextPanicMsg []
    | some l1 =>
      if l1.current = ['.', '.', '.'] then
        let (l2, tok) := emitT l1 referenceTok
        .cont .outer ⟨l2, st⟩ [tok]
      else
        .stop [⟨ErrorTok, "Malformed reference ellipsis: " ++ String.mk l1.current⟩] st true
  | .directive, ⟨l, st⟩ =>
    match l.acceptRun uppercaseChars with
    | none => .panicStep nextPanicMsg []
    | some l1 =>
      let (l2, tok) := emitT l1 directiveTok
      .cont .outer ⟨l2, st⟩ [tok]
  | .comment, ⟨l, st⟩ =>
    match l.acceptTo [] with
    | none => .panicStep nextPanicMsg []
    | some l1 =>
      let (l2, tok) := emitT l1 commentTok
      .cont .outer ⟨l2, st⟩ [tok]
  | .identifier, ⟨l, st⟩ =>
    match identLoop l.m l with
    | none => .panicStep nextPanicMsg []
    | some l1 =>
      let (l2, tok) := emitT l1 identTok
      .cont .outer ⟨l2, st⟩ [tok]

/-- Outcome of a run of the state graph: normal termination (recording the
final indent stack at the moment `eofTok` was emitted), termination through
`Errorf`, a Go panic, or exhaustion of the fuel bound on state transitions. -/
inductive Outcome where
  | halt (stF : Option (List Nat))
  | errored
  | panicked (msg : String)
  | fuelOut
deriving DecidableEq, Repr

/-- Run the state graph (`Start`'s goroutine: `for state != nil { state =
state(l) }`), collecting the emitted tokens in order after the tokens already
in `acc` (tail recursion keeps concrete evaluation linear). -/
def run : Nat → SState → Cfg → List Token → List Token × Outcome
  | 0, _, _, acc => (acc, .fuelOut)
  | fuel + 1, s, c, acc =>
    match step s c with
    | .cont s' c' ts => run fuel s' c' (acc ++ ts)
    | .stop ts stF isErr => (acc ++ ts, if isErr then .errored else .halt stF)
    | .panicStep msg ts => (acc ++ ts, .panicked msg)

/-- A whole lexing session: `lexer.New(src, NewlineState).Start()` followed by
draining the token channel. -/
def scan (src : String) (fuel : Nat) : List Token × Outcome :=
  run fuel .newline ⟨{ source := src.data, start := 0, position := 0, atEOF := false }, none⟩ []

/-- Consumer model of Go `NextToken`: the channel delivers the produced tokens
in emission order and, once the producer has terminated and the buffer is
drained (channel closed), yields the end-of-stream indicator (`nil`, here
`none`) forever. -/
structure TokenStream where
  pending : List Token
deriving DecidableEq, Repr

/-- Go `NextToken`: `if tok, ok := <-l.tokens; ok { return &tok }; return nil`. -/
def nextTokenM : TokenStream → Option Token × TokenStream
  | ⟨[]⟩ => (none, ⟨[]⟩)
  | ⟨t :: ts⟩ => (some t, ⟨ts⟩)

/-- Number of tokens of a given type in a stream. -/
def countType (t : TokenType) (ts : List Token) : Nat :=
  ts.countP (fun x => decide (x.type = t))

/-! ## Basic cursor lemmas -/

/-- Well-formed cursor: the pending-token start is at or before the read
position, which is inside the source. -/
def Lex.wf (l : Lex) : Prop := l.start ≤ l.position ∧ l.position ≤ l.source.length

theorem Lex.next_ne_none {l : Lex} (h : l.atEOF = false) : l.next ≠ none := by
  unfold Lex.next
  cases hg : l.source.get? l.position <;> simp [h]

theorem Lex.next_some_cases {l l' : Lex} {r : Char} (h : l.next = some (r, l')) :
    (l.source.get? l.position = some r ∧ l' = { l with position := l.position + 1 })
    ∨ (l.source.get? l.position = none ∧ l.atEOF = false ∧ r = EOFRune
        ∧ l' = { l with atEOF := true }) := by
  unfold Lex.next at h
  cases hg : l.source.get? l.position <;> rw [hg] at h
  · cases he : l.atEOF <;> rw [he] at h
    · simp only [if_neg Bool.false_ne_true, Option.some.injEq, Prod.mk.injEq] at h
      exact Or.inr ⟨rfl, rfl, h.1.symm, h.2.symm⟩
    · simp at h
  · simp only [Option.some.injEq, Prod.mk.injEq] at h
    exact Or.inl ⟨by rw [h.1], h.2.symm⟩

theorem Lex.get?_some_lt {l : Lex} {r : Char} (hg : l.source.get? l.position = some r) :
    l.position < l.source.length := by
  by_contra hge
  rw [List.get?_eq_none.2 (Nat.le_of_not_lt hge)] at hg
  exact Option.noConfusion hg

theorem Lex.next_m_lt {l l' : Lex} {r : Char} (h : l.next = some (r, l')) : l'.m < l.m := by
  rcases Lex.next_some_cases h with ⟨hg, rfl⟩ | ⟨hg, he, _, rfl⟩
  · have hlt : l.position < l.source.length := Lex.get?_some_lt hg
    simp only [Lex.m]
    cases l.atEOF <;> simp <;> omega
  · simp only [Lex.m, he]
    simp

theorem Lex.next_pres {l l' : Lex} {r : Char} (h : l.next = some (r, l')) :
    l'.source = l.source ∧ l'.start = l.start ∧ l.position ≤ l'.position := by
  rcases Lex.next_some_cases h with ⟨_, rfl⟩ | ⟨_, _, _, rfl⟩
  · exact ⟨rfl, rfl, Nat.le_succ _⟩
  · exact ⟨rfl, rfl, Nat.le_refl _⟩

theorem Lex.next_wf {l l' : Lex} {r : Char} (h : l.next = some (r, l')) (hwf : l.wf) :
    l'.wf := by
  rcases Lex.next_some_cases h with ⟨hg, rfl⟩ | ⟨_, _, _, rfl⟩
  · exact ⟨Nat.le_succ_of_le hwf.1, Lex.get?_some_lt hg⟩
  · exact hwf

theorem Lex.m_pos {l : Lex} (h : l.atEOF = false) : 0 < l.m := by
  simp only [Lex.m, h, cond_false]
  omega

theorem Lex.backup_of_consumed {l : Lex} (hwf : l.wf) (he : l.atEOF = false) :
    ({ l with position := l.position + 1 } : Lex).backup = l := by
  have h1 : l.start < l.position + 1 := Nat.lt_succ_of_le hwf.1
  obtain ⟨src, st, pos, eof⟩ := l
  simp only at he h1
  subst he
  simp [Lex.backup, h1]

theorem Lex.backup_clears {l : Lex} (he : l.atEOF = false) :
    ({ l with atEOF := true } : Lex).backup = l := by
  obtain ⟨src, st, pos, eof⟩ := l
  simp only at he
  subst he
  simp [Lex.backup]

theorem Lex.peek_self {l : Lex} (hwf : l.wf) (he : l.atEOF = false) :
    ∃ r, l.peek = some (r, l) := by
  cases hn : l.next with
  | none => exact absurd hn (Lex.next_ne_none he)
  | some p =>
    obtain ⟨r, l'⟩ := p
    refine ⟨r, ?_⟩
    simp only [Lex.peek, hn, Option.map_some']
    rcases Lex.next_some_cases hn with ⟨_, rfl⟩ | ⟨_, _, _, rfl⟩
    · rw [Lex.backup_of_consumed hwf he]
    · rw [Lex.backup_clears he]

theorem Lex.ignore_wf {l : Lex} (hwf : l.wf) : l.ignore.wf :=
  ⟨Nat.le_refl _, hwf.2⟩

theorem Lex.current_ignore (l : Lex) : l.ignore.current = [] := by
  simp [Lex.ignore, Lex.current]

/-! ## Accept-loop lemmas -/

theorem acceptRunGas_ok {chars : List Char} (hq : '\x00' ∉ chars) :
    ∀ (gas : Nat) (l : Lex), l.wf → l.atEOF = false → l.m ≤ gas →
    ∃ l', acceptRunGas chars gas l = some l' ∧ l'.source = l.source ∧
      l'.start = l.start ∧ l'.atEOF = false ∧ l'.wf ∧ l.position ≤ l'.position := by
  intro gas
  induction gas with
  | zero => intro l hwf he hm; exact absurd (Nat.lt_of_lt_of_le (Lex.m_pos he) hm) (by omega)
  | succ gas ih =>
    intro l hwf he hm
    cases hn : l.next with
    | none => exact absurd hn (Lex.next_ne_none he)
    | some p =>
      obtain ⟨r, l'⟩ := p
      rcases Lex.next_some_cases hn with ⟨hg, hl'⟩ | ⟨hg, _, hr, hl'⟩
      · by_cases hmem : r ∈ chars
        · have hm' : l'.m ≤ gas := Nat.lt_succ_iff.1 (Nat.lt_of_lt_of_le (Lex.next_m_lt hn) hm)
          have hwf' : l'.wf := Lex.next_wf hn hwf
          have he' : l'.atEOF = false := by rw [hl']; exact he
          obtain ⟨l'', hrun, hsrc, hst, heof, hwf'', hpos⟩ := ih l' hwf' he' hm'
          refine ⟨l'', ?_, ?_, ?_, heof, hwf'', ?_⟩
          · simp only [acceptRunGas, hn, if_pos hmem]; exact hrun
          · rw [hsrc, hl']
          · rw [hst, hl']
          · subst hl'; simp at hpos ⊢; omega
        · refine ⟨l'.backup, ?_, ?_⟩
          · simp only [acceptRunGas, hn, if_neg hmem]
          · subst hl'
            rw [Lex.backup_of_consumed hwf he]
            exact ⟨rfl, rfl, he, hwf, Nat.le_refl _⟩
      · subst hr hl'
        have hmem : EOFRune ∉ chars := hq
        refine ⟨({ l with atEOF := true } : Lex).backup, ?_, ?_⟩
        · simp only [acceptRunGas, hn, if_neg hmem]
        · rw [Lex.backup_clears he]
          exact ⟨rfl, rfl, he, hwf, Nat.le_refl _⟩


theorem Lex.acceptRun_ok (chars : List Char) {l : Lex} (hq : '\x00' ∉ chars)
    (hwf : l.wf) (he : l.atEOF = false) :
    ∃ l', l.acceptRun chars = some l' ∧ l'.source = l.source ∧
      l'.start = l.start ∧ l'.atEOF = false ∧ l'.wf ∧ l.position ≤ l'.position :=
  acceptRunGas_ok hq l.m l hwf he (Nat.le_refl _)

/-! ## AcceptTo characterization -/

/-- The scanned length of `AcceptTo`: the longest prefix of the unread source
avoiding the stop set `chars + "\n\x00"`. -/
def twTo (chars : List Char) (l : Lex) : Nat :=
  ((l.source.drop l.position).takeWhile
    (fun c => decide (c ∉ '\n' :: '\x00' :: chars))).length

theorem drop_cons_of_get? {xs : List Char} {n : Nat} {c : Char} (h : xs.get? n = some c) :
    xs.drop n = c :: xs.drop (n + 1) := by
  have hlt : n < xs.length := by
    by_contra hge
    rw [List.get?_eq_none.2 (Nat.le_of_not_lt hge)] at h
    exact Option.noConfusion h
  rw [List.drop_eq_getElem_cons hlt]
  have := List.get?_eq_getElem? xs n
  rw [this, List.getElem?_eq_getElem hlt] at h
  simp only [Option.some.injEq] at h
  rw [h]

theorem acceptToGas_spec (chars : List Char) :
    ∀ (gas : Nat) (l : Lex), l.wf → l.atEOF = false → l.m ≤ gas →
    acceptToGas chars gas l = some { l with position := l.position + twTo chars l } := by
  intro gas
  induction gas with
  | zero =>
    intro l hwf he hm
    exact absurd (Nat.lt_of_lt_of_le (Lex.m_pos he) hm) (by omega)
  | succ gas ih =>
    intro l hwf he hm
    cases hg : l.source.get? l.position with
    | none =>
      have hnext : l.next = some (EOFRune, { l with atEOF := true }) := by
        unfold Lex.next
        rw [hg, if_neg (by simp [he])]
      have hmem : EOFRune ∈ '\n' :: '\x00' :: chars := by
        show '\x00' ∈ _
        simp
      have hdrop : l.source.drop l.position = [] :=
        List.drop_eq_nil_of_le (List.get?_eq_none.1 hg)
      simp only [acceptToGas, hnext, if_pos hmem, twTo, hdrop, List.takeWhile_nil,
        List.length_nil, Nat.add_zero, Lex.backup_clears he]
    | some c =>
      have hnext : l.next = some (c, { l with position := l.position + 1 }) := by
        unfold Lex.next
        rw [hg]
      have hdrop : l.source.drop l.position = c :: l.source.drop (l.position + 1) :=
        drop_cons_of_get? hg
      by_cases hmem : c ∈ '\n' :: '\x00' :: chars
      · simp only [acceptToGas, hnext, if_pos hmem, twTo, hdrop, List.takeWhile_cons,
          decide_eq_true_eq]
        rw [if_neg (by simp [hmem])]
        simp only [List.length_nil, Nat.add_zero, Lex.backup_of_consumed hwf he]
      · have hwf' : ({ l with position := l.position + 1 } : Lex).wf :=
          ⟨Nat.le_succ_of_le hwf.1, Lex.get?_some_lt hg⟩
        have hm' : ({ l with position := l.position + 1 } : Lex).m ≤ gas :=
          Nat.lt_succ_iff.1 (Nat.lt_of_lt_of_le (Lex.next_m_lt hnext) hm)
        have hrec := ih { l with position := l.position + 1 } hwf' he hm'
        simp only [acceptToGas, hnext, if_neg hmem, hrec, twTo, hdrop, List.takeWhile_cons,
          decide_eq_true_eq]
        rw [if_pos (by simpa using hmem)]
        simp only [List.length_cons, Option.some.injEq, Lex.mk.injEq, true_and, and_true]
        omega

theorem Lex.acceptTo_spec (chars : List Char) {l : Lex} (hwf : l.wf) (he : l.atEOF = false) :
    l.acceptTo chars = some { l with position := l.position + twTo chars l } :=
  acceptToGas_spec chars l.m l hwf he (Nat.le_refl _)

/-! ## Identifier-loop lemma -/

theorem identLoop_ok :
    ∀ (gas : Nat) (l : Lex), l.wf → l.atEOF = false → l.m ≤ gas →
    ∃ l', identLoop gas l = some l' ∧ l'.source = l.source ∧
      l'.start = l.start ∧ l'.atEOF = false ∧ l'.wf ∧ l.position ≤ l'.position := by
  intro gas
  induction gas with
  | zero =>
    intro l hwf he hm
    exact absurd (Nat.lt_of_lt_of_le (Lex.m_pos he) hm) (by omega)
  | succ gas ih =>
    intro l hwf he hm
    cases hn : l.next with
    | none => exact absurd hn (Lex.next_ne_none he)
    | some p =>
      obtain ⟨r, l'⟩ := p
      rcases Lex.next_some_cases hn with ⟨hg, hl'⟩ | ⟨hg, _, hr, hl'⟩
      · by_cases halnum : isAlphaNumeric r = true
        · have hm' : l'.m ≤ gas := Nat.lt_succ_iff.1 (Nat.lt_of_lt_of_le (Lex.next_m_lt hn) hm)
          have hwf' : l'.wf := Lex.next_wf hn hwf
          have he' : l'.atEOF = false := by rw [hl']; exact he
          obtain ⟨l'', hrun, hsrc, hst, heof, hwf'', hpos⟩ := ih l' hwf' he' hm'
          refine ⟨l'', ?_, ?_, ?_, heof, hwf'', ?_⟩
          · simp only [identLoop, hn, if_pos halnum]; exact hrun
          · rw [hsrc, hl']
          · rw [hst, hl']
          · subst hl'; simp only at hpos; omega
        · refine ⟨l'.backup, ?_, ?_⟩
          · simp only [identLoop, hn, if_neg halnum]
          · subst hl'
            rw [Lex.backup_of_consumed hwf he]
            exact ⟨rfl, rfl, he, hwf, Nat.le_refl _⟩
      · subst hr hl'
        have halnum : ¬ (isAlphaNumeric EOFRune = true) := by decide
        refine ⟨({ l with atEOF := true } : Lex).backup, ?_, ?_⟩
        · simp only [identLoop, hn, if_neg halnum]
        · rw [Lex.backup_clears he]
          exact ⟨rfl, rfl, he, hwf, Nat.le_refl _⟩

/-! ## Measure lemmas -/

theorem measure_le {cs : List Char} : ∀ {w v : Nat}, measure w cs = some v → w ≤ v := by
  induction cs with
  | nil => intro w v h; simp [measure] at h; omega
  | cons c rest ih =>
    intro w v h
    by_cases hsp : c = ' '
    · rw [measure, if_pos hsp] at h
      exact Nat.le_trans (Nat.le_succ w) (ih h)
    · by_cases htab : c = '\t'
      · rw [measure, if_neg hsp, if_pos htab] at h
        exact Nat.le_trans (Nat.le_add_right w _) (ih h)
      · rw [measure, if_neg hsp, if_neg htab] at h
        exact Option.noConfusion h

theorem measure_zero_iff {cs : List Char} : measure 0 cs = some 0 ↔ cs = [] := by
  constructor
  · intro h
    cases cs with
    | nil => rfl
    | cons c rest =>
      by_cases hsp : c = ' '
      · rw [measure, if_pos hsp] at h
        exact absurd (measure_le h) (by omega)
      · by_cases htab : c = '\t'
        · rw [measure, if_neg hsp, if_pos htab] at h
          exact absurd (measure_le h) (by omega)
        · rw [measure, if_neg hsp, if_neg htab] at h
          exact Option.noConfusion h
  · intro h
    rw [h]
    rfl

theorem measure_append {cs ds : List Char} : ∀ {w : Nat},
    measure w (cs ++ ds) = (measure w cs).bind (fun v => measure v ds) := by
  induction cs with
  | nil => intro w; rfl
  | cons c rest ih =>
    intro w
    by_cases hsp : c = ' '
    · rw [List.cons_append, measure, if_pos hsp, measure, if_pos hsp, ih]
    · by_cases htab : c = '\t'
      · rw [List.cons_append, measure, if_neg hsp, if_pos htab, measure,
          if_neg hsp, if_pos htab, ih]
      · rw [List.cons_append, measure, if_neg hsp, if_neg htab, measure,
          if_neg hsp, if_neg htab]
        rfl

theorem measure_append_none {cs ds : List Char} (h : measure 0 cs = none) :
    measure 0 (cs ++ ds) = none := by
  rw [measure_append, h]
  rfl

/-! ## Current-text lemmas -/

theorem Lex.current_consume {l : Lex} {c : Char} (hwf : l.wf)
    (hg : l.source.get? l.position = some c) :
    ({ l with position := l.position + 1 } : Lex).current = l.current ++ [c] := by
  simp only [Lex.current]
  have h0 : l.start ≤ l.position := hwf.1
  have h1 : l.position + 1 - l.start = (l.position - l.start) + 1 := by omega
  rw [h1, List.take_succ]
  congr 1
  rw [List.getElem?_drop]
  have h2 : l.start + (l.position - l.start) = l.position := by omega
  rw [h2, ← List.get?_eq_getElem?, hg]
  rfl

theorem Lex.current_sentinel (l : Lex) :
    ({ l with atEOF := true } : Lex).current = l.current := rfl

/-! ## Token counting and error-structure predicates -/

/-- No token in the list carries the reserved error type. -/
def noErrorTokens (ts : List Token) : Prop := ∀ t ∈ ts, t.type ≠ ErrorTok

/-- The list ends with exactly one error token, preceded only by non-error
tokens. -/
def errorTerminated (ts : List Token) : Prop :=
  ∃ ts' msg, ts = ts' ++ [⟨ErrorTok, msg⟩] ∧ noErrorTokens ts'

theorem countType_append {τ : TokenType} {ts us : List Token} :
    countType τ (ts ++ us) = countType τ ts + countType τ us :=
  List.countP_append _ _ _

theorem countType_eq_length {τ : TokenType} {ts : List Token}
    (h : ∀ t ∈ ts, t.type = τ) : countType τ ts = ts.length :=
  List.countP_eq_length.2 (fun t ht => by simp [h t ht])

theorem countType_eq_zero {τ τ' : TokenType} {ts : List Token}
    (h : ∀ t ∈ ts, t.type = τ) (hne : ¬ τ' = τ) : countType τ' ts = 0 := by
  rw [countType, List.countP_eq_zero]
  intro t ht
  simp only [decide_eq_true_eq]
  rw [h t ht]
  intro hc
  exact hne hc.symm

theorem noErrorTokens_append {ts us : List Token}
    (h1 : noErrorTokens ts) (h2 : noErrorTokens us) : noErrorTokens (ts ++ us) := by
  intro t ht
  rcases List.mem_append.1 ht with h | h
  · exact h1 t h
  · exact h2 t h

theorem noErrorTokens_nil : noErrorTokens [] := by
  intro t ht
  exact absurd ht (List.not_mem_nil t)

theorem errorTerminated_append {ts us : List Token}
    (h1 : noErrorTokens ts) (h2 : errorTerminated us) : errorTerminated (ts ++ us) := by
  obtain ⟨us', msg, rfl, hus⟩ := h2
  exact ⟨ts ++ us', msg, (List.append_assoc ts us' _).symm, noErrorTokens_append h1 hus⟩

theorem noErrorTokens_of_types {τ : TokenType} {ts : List Token}
    (h : ∀ t ∈ ts, t.type = τ) (hne : ¬ τ = ErrorTok) : noErrorTokens ts := by
  intro t ht hc
  rw [h t ht] at hc
  exact hne hc

/-! ## Indent-stack invariants -/

/-- Invariant of the indent stack (kept top-first): nonempty, ends at the
never-popped base 0, and strictly decreasing from top to base. -/
def stackOK (stk : List Nat) : Prop :=
  stk ≠ [] ∧ stk.getLast? = some 0 ∧ List.Chain' (· > ·) stk

/-- The lazily initialized `State` slot is either untouched or a valid stack. -/
def slotOK : Option (List Nat) → Prop
  | none => True
  | some stk => stackOK stk

/-- Number of open indentation levels recorded in the slot. -/
def depth : Option (List Nat) → Nat
  | none => 0
  | some stk => stk.length - 1

theorem stackOK_base : stackOK [0] := ⟨by simp, by simp, by simp⟩

theorem stackOK_getD {st : Option (List Nat)} (h : slotOK st) : stackOK (st.getD [0]) := by
  cases st with
  | none => exact stackOK_base
  | some stk => exact h

theorem depth_getD {st : Option (List Nat)} : depth st = (st.getD [0]).length - 1 := by
  cases st <;> rfl

theorem dropWhile_stackOK (size : Nat) : ∀ {stk : List Nat}, stackOK stk →
    stackOK (stk.dropWhile (fun x => decide (size < x))) := by
  intro stk
  induction stk with
  | nil => intro h; exact absurd rfl h.1
  | cons a t ih =>
    intro ⟨_, hlast, hchain⟩
    by_cases hp : size < a
    · rw [List.dropWhile_cons, if_pos (by simpa using hp)]
      cases t with
      | nil =>
        simp only [List.getLast?_singleton, Option.some.injEq] at hlast
        omega
      | cons b t' =>
        exact ih ⟨by simp, by rw [← hlast, List.getLast?_cons_cons], hchain.tail⟩
    · rw [List.dropWhile_cons, if_neg (by simpa using hp)]
      exact ⟨by simp, hlast, hchain⟩

theorem dropWhile_head_le (size : Nat) : ∀ (stk : List Nat),
    stk.dropWhile (fun x => decide (size < x)) ≠ [] →
    (stk.dropWhile (fun x => decide (size < x))).headD 0 ≤ size := by
  intro stk
  induction stk with
  | nil => intro h; exact absurd rfl h
  | cons a t ih =>
    intro hne
    by_cases hp : size < a
    · rw [List.dropWhile_cons, if_pos (by simpa using hp)] at hne ⊢
      exact ih hne
    · rw [List.dropWhile_cons, if_neg (by simpa using hp)]
      simpa using Nat.le_of_not_lt hp

theorem stack_zero_singleton : ∀ {stk : List Nat}, stk ≠ [] → stk.headD 0 = 0 →
    List.Chain' (· > ·) stk → stk = [0] := by
  intro stk hne hhead hchain
  cases stk with
  | nil => exact absurd rfl hne
  | cons a t =>
    simp only [List.headD_cons] at hhead
    subst hhead
    cases t with
    | nil => rfl
    | cons b t' =>
      have := List.chain'_cons.1 hchain
      omega

theorem takeWhile_length_pos {size a : Nat} {t : List Nat} (hp : size < a) :
    0 < ((a :: t).takeWhile (fun x => decide (size < x))).length := by
  rw [List.takeWhile_cons, if_pos (by simpa using hp)]
  simp

theorem takeWhile_dropWhile_length (size : Nat) (stk : List Nat) :
    (stk.takeWhile (fun x => decide (size < x))).length +
      (stk.dropWhile (fun x => decide (size < x))).length = stk.length := by
  rw [← List.length_append, List.takeWhile_append_dropWhile]

/-! ## Dedent-loop characterization -/

theorem dedentLoop_pop {size a b : Nat} {t' : List Nat} {l : Lex} {acc : List Token}
    (hp : size < a) :
    dedentLoop size l (a :: b :: t') acc =
      dedentLoop size l.ignore (b :: t') (acc ++ [(emitT l dedentTok).2]) := by
  simp [dedentLoop, hp, emitT]

theorem dedentLoop_stay {size a : Nat} {t : List Nat} {l : Lex} {acc : List Token}
    (hp : ¬ size < a) :
    dedentLoop size l (a :: t) acc = some (l, a :: t, a, acc) := by
  cases t with
  | nil => simp [dedentLoop, hp]
  | cons b t'' => simp [dedentLoop, hp]

theorem dedentLoop_spec (size : Nat) :
    ∀ (stk : List Nat) (l : Lex) (acc : List Token), stackOK stk →
    ∃ l' ts,
      dedentLoop size l stk acc =
        some (l', stk.dropWhile (fun x => decide (size < x)),
          (stk.dropWhile (fun x => decide (size < x))).headD 0, acc ++ ts) ∧
      (∀ t ∈ ts, t.type = dedentTok) ∧
      ts.length = (stk.takeWhile (fun x => decide (size < x))).length ∧
      ((ts = [] ∧ l' = l) ∨ l' = l.ignore) := by
  intro stk
  induction stk with
  | nil => intro l acc h; exact absurd rfl h.1
  | cons a t ih =>
    intro l acc ⟨_, hlast, hchain⟩
    by_cases hp : size < a
    · -- one pop; the tail is nonempty because the base 0 never satisfies the guard
      cases t with
      | nil =>
        simp only [List.getLast?_singleton, Option.some.injEq] at hlast
        omega
      | cons b t' =>
        have hok' : stackOK (b :: t') :=
          ⟨by simp, by rw [← hlast, List.getLast?_cons_cons], hchain.tail⟩
        have hdw : List.dropWhile (fun x => decide (size < x)) (a :: b :: t') =
            List.dropWhile (fun x => decide (size < x)) (b :: t') := by
          rw [List.dropWhile_cons, if_pos (by simpa using hp)]
        have htw : List.takeWhile (fun x => decide (size < x)) (a :: b :: t') =
            a :: List.takeWhile (fun x => decide (size < x)) (b :: t') := by
          rw [List.takeWhile_cons, if_pos (by simpa using hp)]
        obtain ⟨l', ts0, hrun, htypes, hlen, hl'⟩ :=
          ih l.ignore (acc ++ [(emitT l dedentTok).2]) hok'
        refine ⟨l', (emitT l dedentTok).2 :: ts0, ?_, ?_, ?_, ?_⟩
        · rw [dedentLoop_pop hp, hrun, hdw, List.append_assoc]
          rfl
        · intro x hx
          rcases List.mem_cons.1 hx with rfl | hx
          · rfl
          · exact htypes x hx
        · rw [htw]
          simp only [List.length_cons, hlen]
        · rcases hl' with ⟨_, rfl⟩ | rfl
          · exact Or.inr rfl
          · exact Or.inr (by simp [Lex.ignore])
    · have hdw : List.dropWhile (fun x => decide (size < x)) (a :: t) = a :: t := by
        rw [List.dropWhile_cons, if_neg (by simpa using hp)]
      have htw : List.takeWhile (fun x => decide (size < x)) (a :: t) = [] := by
        rw [List.takeWhile_cons, if_neg (by simpa using hp)]
      refine ⟨l, [], ?_, ?_, ?_, Or.inl ⟨rfl, rfl⟩⟩
      · rw [dedentLoop_stay hp, hdw]
        simp
      · intro x hx
        exact absurd hx (List.not_mem_nil x)
      · rw [htw]
        rfl

/-! ## updateIndent characterization -/

theorem updateIndent_eq_none {l : Lex} {st : Option (List Nat)}
    (hm : measure 0 l.current = none) :
    updateIndent l st = .panicUI [] measurePanicMsg := by
  simp [updateIndent, hm]

theorem updateIndent_eq_equal {l : Lex} {st : Option (List Nat)} {size : Nat}
    {rest : List Nat} (hm : measure 0 l.current = some size)
    (hind : st.getD [0] = size :: rest) :
    updateIndent l st = .ok l.ignore (size :: rest) [] := by
  simp [updateIndent, hm, hind]

theorem updateIndent_eq_greater {l : Lex} {st : Option (List Nat)} {size peek : Nat}
    {rest : List Nat} (hm : measure 0 l.current = some size)
    (hind : st.getD [0] = peek :: rest) (hgt : size > peek) :
    updateIndent l st =
      .ok (emitT l indentTok).1 (size :: peek :: rest) [(emitT l indentTok).2] := by
  have hne : ¬ size = peek := by omega
  simp [updateIndent, hm, hind, hne, hgt, emitT]

theorem updateIndent_eq_less {l : Lex} {st : Option (List Nat)} {size peek : Nat}
    {rest : List Nat} {l' : Lex} {stk' : List Nat} {peek' : Nat} {ts : List Token}
    (hm : measure 0 l.current = some size) (hind : st.getD [0] = peek :: rest)
    (hlt : size < peek)
    (hrun : dedentLoop size l (peek :: rest) [] = some (l', stk', peek', ts)) :
    updateIndent l st =
      (if peek' < size then
        UIOut.err ts ("Inconsistent dedent. Expecting " ++ toString peek' ++
          " but found " ++ toString size ++ ".")
      else UIOut.ok l' stk' ts) := by
  have hne : ¬ size = peek := by omega
  have hng : ¬ size > peek := by omega
  simp [updateIndent, hm, hind, hne, hng, hrun]

theorem updateIndent_spec {l : Lex} {st : Option (List Nat)} (hok : slotOK st) :
    (updateIndent l st = .panicUI [] measurePanicMsg ∧ measure 0 l.current = none) ∨
    (∃ size l' st' ts, measure 0 l.current = some size ∧
      updateIndent l st = .ok l' st' ts ∧ stackOK st' ∧
      depth st + countType indentTok ts = (st'.length - 1) + countType dedentTok ts ∧
      (∀ t ∈ ts, t.type = indentTok ∨ t.type = dedentTok) ∧
      l'.source = l.source ∧ l'.start = l'.position ∧ l'.position = l.position ∧
      l'.atEOF = l.atEOF ∧ (size = 0 → st' = [0])) ∨
    (∃ ts msg size', updateIndent l st = .err ts msg ∧ (∀ t ∈ ts, t.type = dedentTok) ∧
      measure 0 l.current = some size' ∧ 0 < size') := by
  cases hm : measure 0 l.current with
  | none => exact Or.inl ⟨updateIndent_eq_none hm, rfl⟩
  | some size =>
    obtain ⟨hne, hlast, hchain⟩ := stackOK_getD hok
    cases hind : st.getD [0] with
    | nil => rw [hind] at hne; exact absurd rfl hne
    | cons peek rest =>
      rw [hind] at hlast hchain
      rcases Nat.lt_trichotomy size peek with hlt | heq | hgt
      · -- less: pop with one dedent per iteration
        obtain ⟨l', ts, hrun, htypes, hlen, hl'⟩ :=
          dedentLoop_spec size (peek :: rest) l [] ⟨by simp, hlast, hchain⟩
        rw [List.nil_append] at hrun
        have hok' := dropWhile_stackOK size ⟨by simp, hlast, hchain⟩
        have hhead := dropWhile_head_le size (peek :: rest) hok'.1
        have hts_ne : ts ≠ [] := by
          intro h0
          rw [h0] at hlen
          have hpos := takeWhile_length_pos (t := rest) hlt
          simp only [List.length_nil] at hlen
          omega
        have hl'i : l' = l.ignore := by
          rcases hl' with ⟨h0, _⟩ | h
          · exact absurd h0 hts_ne
          · exact h
        by_cases herr : (((peek :: rest).dropWhile (fun x => decide (size < x))).headD 0) < size
        · right; right
          refine ⟨ts, "Inconsistent dedent. Expecting " ++
            toString (((peek :: rest).dropWhile (fun x => decide (size < x))).headD 0) ++
            " but found " ++ toString size ++ ".", size, ?_, htypes, rfl, by omega⟩
          rw [updateIndent_eq_less hm hind hlt hrun, if_pos herr]
        · right; left
          have hcd : countType dedentTok ts = ts.length := countType_eq_length htypes
          have hci : countType indentTok ts = 0 :=
            countType_eq_zero htypes (by decide)
          refine ⟨size, l', _, ts, rfl, ?_, hok', ?_, ?_, ?_, ?_, ?_, ?_, ?_⟩
          · rw [updateIndent_eq_less hm hind hlt hrun, if_neg herr]
          · -- balance
            have hsum := takeWhile_dropWhile_length size (peek :: rest)
            have hpos : ((peek :: rest).dropWhile (fun x => decide (size < x))).length ≠ 0 :=
              fun h0 => hok'.1 (List.length_eq_zero.1 h0)
            rw [depth_getD, hind, hci, hcd, hlen]
            omega
          · intro t ht; exact Or.inr (htypes t ht)
          · rw [hl'i]; rfl
          · rw [hl'i]; rfl
          · rw [hl'i]; rfl
          · rw [hl'i]; rfl
          · intro h0
            subst h0
            have h1 : (((peek :: rest).dropWhile (fun x => decide ((0:Nat) < x))).headD 0) = 0 := by
              omega
            exact stack_zero_singleton hok'.1 h1 hok'.2.2
      · -- equal: nothing emitted
        subst heq
        right; left
        refine ⟨size, l.ignore, size :: rest, [], rfl, updateIndent_eq_equal hm hind, ?_,
          ?_, ?_, rfl, rfl, rfl, rfl, ?_⟩
        · exact ⟨by simp, hlast, hchain⟩
        · rw [depth_getD, hind]
          simp [countType]
        · intro t ht; exact absurd ht (List.not_mem_nil t)
        · intro h0
          subst h0
          exact stack_zero_singleton (by simp) (by simp) hchain
      · -- greater: push, emit one indent token
        right; left
        have htok : (emitT l indentTok).2.type = indentTok := rfl
        refine ⟨size, (emitT l indentTok).1, size :: peek :: rest, [(emitT l indentTok).2],
          rfl, updateIndent_eq_greater hm hind hgt, ?_, ?_, ?_, rfl, rfl, rfl, rfl, ?_⟩
        · refine ⟨by simp, ?_, ?_⟩
          · rw [List.getLast?_cons_cons, hlast]
          · exact List.chain'_cons.2 ⟨hgt, hchain⟩
        · have hall : ∀ t ∈ [(emitT l indentTok).2], t.type = indentTok := by
            intro t ht
            rcases List.mem_singleton.1 ht with rfl
            rfl
          have h1 := countType_eq_length hall
          have h2 := @countType_eq_zero indentTok dedentTok [(emitT l indentTok).2] hall
            (by decide)
          rw [depth_getD, hind, h1, h2]
          simp only [List.length_cons, List.length_nil]
          omega
        · intro t ht
          rcases List.mem_singleton.1 ht with rfl
          exact Or.inl rfl
        · intro h0; omega

/-- When the pending text measures to width 0, `updateIndent` always succeeds
and closes every open indentation level. -/
theorem updateIndent_zero_ok {l : Lex} {st : Option (List Nat)} (hok : slotOK st)
    (hm : measure 0 l.current = some 0) :
    ∃ l' ts, updateIndent l st = .ok l' [0] ts ∧
      (∀ t ∈ ts, t.type = indentTok ∨ t.type = dedentTok) ∧
      depth st + countType indentTok ts = countType dedentTok ts ∧
      l'.source = l.source ∧ l'.start = l'.position ∧ l'.position = l.position ∧
      l'.atEOF = l.atEOF := by
  rcases updateIndent_spec (l := l) hok with ⟨_, hnone⟩ |
      ⟨size, l', st', ts, hm', hui, _, hbal, htypes, hsrc, hsp, hpp, hae, hzero⟩ |
      ⟨ts, msg, size', _, _, hm', hpos⟩
  · rw [hm] at hnone
    exact Option.noConfusion hnone
  · rw [hm] at hm'
    have hsz : size = 0 := by
      have := Option.some.inj hm'
      omega
    subst hsz
    rw [hzero rfl] at hui hbal
    refine ⟨l', ts, hui, htypes, ?_, hsrc, hsp, hpp, hae⟩
    simpa using hbal
  · rw [hm] at hm'
    have := Option.some.inj hm'
    omega

/-! ## Single-token counting helpers -/

theorem countType_single_ne {t : Token} {τ τ' : TokenType} (h : t.type = τ)
    (hne : ¬ τ' = τ) : countType τ' [t] = 0 :=
  countType_eq_zero (fun x hx => by rcases List.mem_singleton.1 hx with rfl; exact h) hne

theorem noError_single {t : Token} {τ : TokenType} (h : t.type = τ)
    (hne : ¬ τ = ErrorTok) : noErrorTokens [t] :=
  noErrorTokens_of_types (fun x hx => by rcases List.mem_singleton.1 hx with rfl; exact h) hne

theorem Lex.m_ignore (l : Lex) : l.ignore.m = l.m := rfl

theorem Lex.next_char_case {l l' : Lex} {r : Char} (h : l.next = some (r, l'))
    (hr : ¬ r = EOFRune) :
    l.source.get? l.position = some r ∧ l' = { l with position := l.position + 1 } := by
  rcases Lex.next_some_cases h with h1 | ⟨_, _, hEq, _⟩
  · exact h1
  · exact absurd hEq hr

/-! ## The reachability invariant of the scanner -/

/-- On entry to `OuterState`, either nothing is pending, or the pending text
cannot be measured (the stray closing delimiter left behind by a quote
state). -/
def outerPending (l : Lex) : Prop :=
  l.start = l.position ∨ measure 0 l.current = none

/-- Invariant of every reachable scanner configuration. -/
def Inv (s : SState) (c : Cfg) : Prop :=
  c.lex.wf ∧ c.lex.atEOF = false ∧ slotOK c.stack ∧
    (s = SState.outer → outerPending c.lex)

theorem Lex.current_empty_of_eq {l : Lex} (h : l.start = l.position) : l.current = [] := by
  simp [Lex.current, h]

theorem noError_of_indent_types {ts : List Token}
    (h : ∀ t ∈ ts, t.type = indentTok ∨ t.type = dedentTok) : noErrorTokens ts := by
  intro t ht hc
  rcases h t ht with h0 | h0 <;> rw [h0] at hc <;> exact absurd hc (by decide)

/-! ## OuterState loop: invariant preservation -/

theorem outerLoop_spec (st : Option (List Nat)) (hst : slotOK st) :
    ∀ (gas : Nat) (l : Lex) (acc : List Token),
    l.wf → l.atEOF = false → outerPending l → l.m ≤ gas →
    noErrorTokens acc → countType indentTok acc = 0 → countType dedentTok acc = 0 →
    (∀ s' c' ts, outerLoop st gas l acc = .cont s' c' ts →
        Inv s' c' ∧ c'.stack = st ∧ noErrorTokens ts ∧
        countType indentTok ts = 0 ∧ countType dedentTok ts = 0) ∧
    (∀ ts stF, outerLoop st gas l acc = .stop ts stF false →
        stF = some [0] ∧ noErrorTokens ts ∧
        depth st + countType indentTok ts = countType dedentTok ts ∧
        ∃ pre, ts = pre ++ [⟨eofTok, ""⟩]) ∧
    (∀ ts stF, outerLoop st gas l acc = .stop ts stF true → errorTerminated ts) ∧
    (∀ msg ts, outerLoop st gas l acc = .panicStep msg ts →
        msg = measurePanicMsg ∧ noErrorTokens ts) := by
  intro gas
  induction gas with
  | zero =>
    intro l acc hwf he hpend hm hacc hai had
    exact absurd (Nat.lt_of_lt_of_le (Lex.m_pos he) hm) (by omega)
  | succ gas ih =>
    intro l acc hwf he hpend hm hacc hai had
    cases hn : l.next with
    | none => exact absurd hn (Lex.next_ne_none he)
    | some p =>
      obtain ⟨r, l'⟩ := p
      have hm1 : l'.m ≤ gas := Nat.lt_succ_iff.1 (Nat.lt_of_lt_of_le (Lex.next_m_lt hn) hm)
      by_cases h1 : r = ' ' ∨ r = '\t'
      · have hchar := Lex.next_char_case hn (by rcases h1 with rfl | rfl <;> decide)
        have he' : l'.atEOF = false := by rw [hchar.2]; exact he
        have hwf' : l'.wf := Lex.next_wf hn hwf
        have heq : outerLoop st (gas+1) l acc = outerLoop st gas l'.ignore acc := by
          simp only [outerLoop, hn]
          rw [if_pos h1]
        rw [heq]
        exact ih l'.ignore acc (Lex.ignore_wf hwf') he' (Or.inl rfl) hm1 hacc hai had
      · by_cases h2 : r = '\n'
        · have hchar := Lex.next_char_case hn (by subst h2; decide)
          have he' : l'.atEOF = false := by rw [hchar.2]; exact he
          have hwf' : l'.wf := Lex.next_wf hn hwf
          have heq : outerLoop st (gas+1) l acc = .cont .newline ⟨l', st⟩ acc := by
            simp only [outerLoop, hn]
            rw [if_neg h1, if_pos h2]
          rw [heq]
          refine ⟨?_, ?_, ?_, ?_⟩
          · intro s' c' ts hh
            injection hh with hs hc hts
            subst hs; subst hc; subst hts
            exact ⟨⟨hwf', he', hst, fun hcon => absurd hcon (by decide)⟩, rfl, hacc, hai, had⟩
          · intro ts stF hh; exact StepOut.noConfusion hh
          · intro ts stF hh; exact StepOut.noConfusion hh
          · intro msg ts hh; exact StepOut.noConfusion hh
        · by_cases h3 : r = '='
          · have hchar := Lex.next_char_case hn (by subst h3; decide)
            have he' : l'.atEOF = false := by rw [hchar.2]; exact he
            have hwf' : l'.wf := Lex.next_wf hn hwf
            have heq : outerLoop st (gas+1) l acc =
                outerLoop st gas l'.ignore (acc ++ [(emitT l' equalsTok).2]) := by
              simp only [outerLoop, hn, emitT]
              rw [if_neg h1, if_neg h2, if_pos h3]
            rw [heq]
            refine ih _ _ (Lex.ignore_wf hwf') he' (Or.inl rfl) (by rw [Lex.m_ignore]; exact hm1)
              (noErrorTokens_append hacc (noError_single (τ := equalsTok) rfl (by decide))) ?_ ?_
            · rw [countType_append, hai, countType_single_ne (τ := equalsTok) rfl (by decide)]
            · rw [countType_append, had, countType_single_ne (τ := equalsTok) rfl (by decide)]
          · by_cases h4 : r = '('
            · have hchar := Lex.next_char_case hn (by subst h4; decide)
              have he' : l'.atEOF = false := by rw [hchar.2]; exact he
              have hwf' : l'.wf := Lex.next_wf hn hwf
              have heq : outerLoop st (gas+1) l acc =
                  outerLoop st gas l'.ignore (acc ++ [(emitT l' openTok).2]) := by
                simp only [outerLoop, hn, emitT]
                rw [if_neg h1, if_neg h2, if_neg h3, if_pos h4]
              rw [heq]
              refine ih _ _ (Lex.ignore_wf hwf') he' (Or.inl rfl) (by rw [Lex.m_ignore]; exact hm1)
                (noErrorTokens_append hacc (noError_single (τ := openTok) rfl (by decide))) ?_ ?_
              · rw [countType_append, hai, countType_single_ne (τ := openTok) rfl (by decide)]
              · rw [countType_append, had, countType_single_ne (τ := openTok) rfl (by decide)]
            · by_cases h5 : r = ')'
              · have hchar := Lex.next_char_case hn (by subst h5; decide)
                have he' : l'.atEOF = false := by rw [hchar.2]; exact he
                have hwf' : l'.wf := Lex.next_wf hn hwf
                have heq : outerLoop st (gas+1) l acc =
                    outerLoop st gas l'.ignore (acc ++ [(emitT l' closeTok).2]) := by
                  simp only [outerLoop, hn, emitT]
                  rw [if_neg h1, if_neg h2, if_neg h3, if_neg h4, if_pos h5]
                rw [heq]
                refine ih _ _ (Lex.ignore_wf hwf') he' (Or.inl rfl) (by rw [Lex.m_ignore]; exact hm1)
                  (noErrorTokens_append hacc (noError_single (τ := closeTok) rfl (by decide))) ?_ ?_
                · rw [countType_append, hai, countType_single_ne (τ := closeTok) rfl (by decide)]
                · rw [countType_append, had, countType_single_ne (τ := closeTok) rfl (by decide)]
              · by_cases h6 : r = ',' ∨ r = '|' ∨ r = '&'
                · have hchar := Lex.next_char_case hn (by rcases h6 with rfl | rfl | rfl <;> decide)
                  have he' : l'.atEOF = false := by rw [hchar.2]; exact he
                  have hwf' : l'.wf := Lex.next_wf hn hwf
                  have heq : outerLoop st (gas+1) l acc =
                      outerLoop st gas l'.ignore (acc ++ [(emitT l' separatorTok).2]) := by
                    simp only [outerLoop, hn, emitT]
                    rw [if_neg h1, if_neg h2, if_neg h3, if_neg h4, if_neg h5, if_pos h6]
                  rw [heq]
                  refine ih _ _ (Lex.ignore_wf hwf') he' (Or.inl rfl) (by rw [Lex.m_ignore]; exact hm1)
                    (noErrorTokens_append hacc (noError_single (τ := separatorTok) rfl (by decide))) ?_ ?_
                  · rw [countType_append, hai, countType_single_ne (τ := separatorTok) rfl (by decide)]
                  · rw [countType_append, had, countType_single_ne (τ := separatorTok) rfl (by decide)]
                · by_cases h7 : r = '*' ∨ r = '+' ∨ r = '?'
                  · have hchar := Lex.next_char_case hn (by rcases h7 with rfl | rfl | rfl <;> decide)
                    have he' : l'.atEOF = false := by rw [hchar.2]; exact he
                    have hwf' : l'.wf := Lex.next_wf hn hwf
                    have heq : outerLoop st (gas+1) l acc =
                        outerLoop st gas l'.ignore (acc ++ [(emitT l' multiplicityTok).2]) := by
                      simp only [outerLoop, hn, emitT]
                      rw [if_neg h1, if_neg h2, if_neg h3, if_neg h4, if_neg h5, if_neg h6,
                        if_pos h7]
                    rw [heq]
                    refine ih _ _ (Lex.ignore_wf hwf') he' (Or.inl rfl)
                      (by rw [Lex.m_ignore]; exact hm1)
                      (noErrorTokens_append hacc (noError_single (τ := multiplicityTok) rfl (by decide))) ?_ ?_
                    · rw [countType_append, hai, countType_single_ne (τ := multiplicityTok) rfl (by decide)]
                    · rw [countType_append, had, countType_single_ne (τ := multiplicityTok) rfl (by decide)]
                  · by_cases h8 : r = '"'
                    · have hchar := Lex.next_char_case hn (by subst h8; decide)
                      have he' : l'.atEOF = false := by rw [hchar.2]; exact he
                      have hwf' : l'.wf := Lex.next_wf hn hwf
                      have heq : outerLoop st (gas+1) l acc = .cont .dquote ⟨l', st⟩ acc := by
                        simp only [outerLoop, hn]
                        rw [if_neg h1, if_neg h2, if_neg h3, if_neg h4, if_neg h5, if_neg h6,
                          if_neg h7, if_pos h8]
                      rw [heq]
                      refine ⟨?_, ?_, ?_, ?_⟩
                      · intro s' c' ts hh
                        injection hh with hs hc hts
                        subst hs; subst hc; subst hts
                        exact ⟨⟨hwf', he', hst, fun hcon => absurd hcon (by decide)⟩, rfl,
                          hacc, hai, had⟩
                      · intro ts stF hh; exact StepOut.noConfusion hh
                      · intro ts stF hh; exact StepOut.noConfusion hh
                      · intro msg ts hh; exact StepOut.noConfusion hh
                    · by_cases h9 : r = '\''
                      · have hchar := Lex.next_char_case hn (by subst h9; decide)
                        have he' : l'.atEOF = false := by rw [hchar.2]; exact he
                        have hwf' : l'.wf := Lex.next_wf hn hwf
                        have heq : outerLoop st (gas+1) l acc = .cont .squote ⟨l', st⟩ acc := by
                          simp only [outerLoop, hn]
                          rw [if_neg h1, if_neg h2, if_neg h3, if_neg h4, if_neg h5, if_neg h6,
                            if_neg h7, if_neg h8, if_pos h9]
                        rw [heq]
                        refine ⟨?_, ?_, ?_, ?_⟩
                        · intro s' c' ts hh
                          injection hh with hs hc hts
                          subst hs; subst hc; subst hts
                          exact ⟨⟨hwf', he', hst, fun hcon => absurd hcon (by decide)⟩, rfl,
                            hacc, hai, had⟩
                        · intro ts stF hh; exact StepOut.noConfusion hh
                        · intro ts stF hh; exact StepOut.noConfusion hh
                        · intro msg ts hh; exact StepOut.noConfusion hh
                      · by_cases h10 : r = '.'
                        · have hchar := Lex.next_char_case hn (by subst h10; decide)
                          have he' : l'.atEOF = false := by rw [hchar.2]; exact he
                          have hwf' : l'.wf := Lex.next_wf hn hwf
                          have heq : outerLoop st (gas+1) l acc =
                              .cont .refState ⟨l', st⟩ acc := by
                            simp only [outerLoop, hn]
                            rw [if_neg h1, if_neg h2, if_neg h3, if_neg h4, if_neg h5, if_neg h6,
                              if_neg h7, if_neg h8, if_neg h9, if_pos h10]
                          rw [heq]
                          refine ⟨?_, ?_, ?_, ?_⟩
                          · intro s' c' ts hh
                            injection hh with hs hc hts
                            subst hs; subst hc; subst hts
                            exact ⟨⟨hwf', he', hst, fun hcon => absurd hcon (by decide)⟩, rfl,
                              hacc, hai, had⟩
                          · intro ts stF hh; exact StepOut.noConfusion hh
                          · intro ts stF hh; exact StepOut.noConfusion hh
                          · intro msg ts hh; exact StepOut.noConfusion hh
                        · by_cases h11 : r = '#'
                          · have hchar := Lex.next_char_case hn (by subst h11; decide)
                            have he' : l'.atEOF = false := by rw [hchar.2]; exact he
                            have hwf' : l'.wf := Lex.next_wf hn hwf
                            obtain ⟨r2, hpk⟩ := Lex.peek_self hwf' he'
                            by_cases hAZ : 'A' ≤ r2 ∧ r2 ≤ 'Z'
                            · have heq : outerLoop st (gas+1) l acc =
                                  .cont .directive ⟨l', st⟩ acc := by
                                simp only [outerLoop, hn, hpk]
                                rw [if_neg h1, if_neg h2, if_neg h3, if_neg h4, if_neg h5,
                                  if_neg h6, if_neg h7, if_neg h8, if_neg h9, if_neg h10,
                                  if_pos h11, if_pos hAZ]
                              rw [heq]
                              refine ⟨?_, ?_, ?_, ?_⟩
                              · intro s' c' ts hh
                                injection hh with hs hc hts
                                subst hs; subst hc; subst hts
                                exact ⟨⟨hwf', he', hst, fun hcon => absurd hcon (by decide)⟩, rfl,
                                  hacc, hai, had⟩
                              · intro ts stF hh; exact StepOut.noConfusion hh
                              · intro ts stF hh; exact StepOut.noConfusion hh
                              · intro msg ts hh; exact StepOut.noConfusion hh
                            · have heq : outerLoop st (gas+1) l acc =
                                  .cont .comment ⟨l', st⟩ acc := by
                                simp only [outerLoop, hn, hpk]
                                rw [if_neg h1, if_neg h2, if_neg h3, if_neg h4, if_neg h5,
                                  if_neg h6, if_neg h7, if_neg h8, if_neg h9, if_neg h10,
                                  if_pos h11, if_neg hAZ]
                              rw [heq]
                              refine ⟨?_, ?_, ?_, ?_⟩
                              · intro s' c' ts hh
                                injection hh with hs hc hts
                                subst hs; subst hc; subst hts
                                exact ⟨⟨hwf', he', hst, fun hcon => absurd hcon (by decide)⟩, rfl,
                                  hacc, hai, had⟩
                              · intro ts stF hh; exact StepOut.noConfusion hh
                              · intro ts stF hh; exact StepOut.noConfusion hh
                              · intro msg ts hh; exact StepOut.noConfusion hh
                          · by_cases h12 : r = EOFRune
                            · subst h12
                              rcases Lex.next_some_cases hn with ⟨hg, hl'⟩ | ⟨hg, _, _, hl'⟩
                              · -- a literal NUL rune was consumed: measure panics
                                have hnone : measure 0 l'.current = none := by
                                  rw [hl', Lex.current_consume hwf hg]
                                  rcases hpend with hsp | hmn
                                  · rw [Lex.current_empty_of_eq hsp]
                                    simp only [List.nil_append]
                                    decide
                                  · exact measure_append_none hmn
                                have heq : outerLoop st (gas+1) l acc =
                                    .panicStep measurePanicMsg (acc ++ []) := by
                                  simp only [outerLoop, hn]
                                  rw [if_neg h1, if_neg h2, if_neg h3, if_neg h4, if_neg h5,
                                    if_neg h6, if_neg h7, if_neg h8, if_neg h9, if_neg h10,
                                    if_neg h11]
                                  simp only [updateIndent_eq_none hnone]
                                  rw [if_pos trivial]
                                rw [heq]
                                refine ⟨?_, ?_, ?_, ?_⟩
                                · intro s' c' ts hh; exact StepOut.noConfusion hh
                                · intro ts stF hh; exact StepOut.noConfusion hh
                                · intro ts stF hh; exact StepOut.noConfusion hh
                                · intro msg ts hh
                                  injection hh with hmsg hts
                                  subst hmsg; subst hts
                                  exact ⟨rfl, by simpa using hacc⟩
                              · -- genuine end of input
                                have hl'c : l'.current = l.current := by rw [hl']; rfl
                                rcases hpend with hsp | hmn
                                · have hm0 : measure 0 l'.current = some 0 := by
                                    rw [hl'c, Lex.current_empty_of_eq hsp]
                                    rfl
                                  obtain ⟨l2, ts, hui, htypes, hbal, hsrc, hsp2, hpp, hae⟩ :=
                                    updateIndent_zero_ok hst hm0
                                  have heof : (emitT l2 eofTok).2 = (⟨eofTok, ""⟩ : Token) := by
                                    show (⟨eofTok, String.mk l2.current⟩ : Token) = _
                                    rw [Lex.current_empty_of_eq hsp2]
                                  have heq : outerLoop st (gas+1) l acc =
                                      .stop (acc ++ ts ++ [(⟨eofTok, ""⟩ : Token)])
                                        (some [0]) false := by
                                    simp only [outerLoop, hn]
                                    rw [if_neg h1, if_neg h2, if_neg h3, if_neg h4, if_neg h5,
                                      if_neg h6, if_neg h7, if_neg h8, if_neg h9, if_neg h10,
                                      if_neg h11]
                                    simp only [hui, heof, emitT]
                                    rw [if_pos trivial, Lex.current_empty_of_eq hsp2]
                                  rw [heq]
                                  refine ⟨?_, ?_, ?_, ?_⟩
                                  · intro s' c' ts0 hh; exact StepOut.noConfusion hh
                                  · intro ts0 stF hh
                                    injection hh with hts hstF herr
                                    subst hts; subst hstF
                                    refine ⟨rfl, ?_, ?_, ⟨acc ++ ts, rfl⟩⟩
                                    · exact noErrorTokens_append
                                        (noErrorTokens_append hacc (noError_of_indent_types htypes))
                                        (noError_single (τ := eofTok) rfl (by decide))
                                    · have he1 : countType indentTok [(⟨eofTok, ""⟩ : Token)] = 0 :=
                                        countType_single_ne (τ := eofTok) rfl (by decide)
                                      have he2 : countType dedentTok [(⟨eofTok, ""⟩ : Token)] = 0 :=
                                        countType_single_ne (τ := eofTok) rfl (by decide)
                                      simp only [countType_append, hai, had, he1, he2]
                                      omega
                                  · intro ts0 stF hh
                                    injection hh with hts hstF herr
                                    exact Bool.noConfusion herr
                                  · intro msg ts0 hh; exact StepOut.noConfusion hh
                                · have hnone : measure 0 l'.current = none := by
                                    rw [hl'c]; exact hmn
                                  have heq : outerLoop st (gas+1) l acc =
                                      .panicStep measurePanicMsg (acc ++ []) := by
                                    simp only [outerLoop, hn]
                                    rw [if_neg h1, if_neg h2, if_neg h3, if_neg h4, if_neg h5,
                                      if_neg h6, if_neg h7, if_neg h8, if_neg h9, if_neg h10,
                                      if_neg h11]
                                    simp only [updateIndent_eq_none hnone]
                                    rw [if_pos trivial]
                                  rw [heq]
                                  refine ⟨?_, ?_, ?_, ?_⟩
                                  · intro s' c' ts hh; exact StepOut.noConfusion hh
                                  · intro ts stF hh; exact StepOut.noConfusion hh
                                  · intro ts stF hh; exact StepOut.noConfusion hh
                                  · intro msg ts hh
                                    injection hh with hmsg hts
                                    subst hmsg; subst hts
                                    exact ⟨rfl, by simpa using hacc⟩
                            · by_cases h13 : isOuterLetter r = true
                              · have hrne : ¬ r = EOFRune := h12
                                have hchar := Lex.next_char_case hn hrne
                                have he' : l'.atEOF = false := by rw [hchar.2]; exact he
                                have hwf' : l'.wf := Lex.next_wf hn hwf
                                have heq : outerLoop st (gas+1) l acc =
                                    .cont .identifier ⟨l', st⟩ acc := by
                                  simp only [outerLoop, hn]
                                  rw [if_neg h1, if_neg h2, if_neg h3, if_neg h4, if_neg h5,
                                    if_neg h6, if_neg h7, if_neg h8, if_neg h9, if_neg h10,
                                    if_neg h11, if_neg h12, if_pos h13]
                                rw [heq]
                                refine ⟨?_, ?_, ?_, ?_⟩
                                · intro s' c' ts hh
                                  injection hh with hs hc hts
                                  subst hs; subst hc; subst hts
                                  exact ⟨⟨hwf', he', hst, fun hcon => absurd hcon (by decide)⟩,
                                    rfl, hacc, hai, had⟩
                                · intro ts stF hh; exact StepOut.noConfusion hh
                                · intro ts stF hh; exact StepOut.noConfusion hh
                                · intro msg ts hh; exact StepOut.noConfusion hh
                              · have heq : outerLoop st (gas+1) l acc =
                                    .stop (acc ++ [⟨ErrorTok, "Unexpected unicode character (" ++
                                      outerLoop.goCharFormat r ++ ") in outer context."⟩])
                                      st true := by
                                  simp only [outerLoop, hn]
                                  rw [if_neg h1, if_neg h2, if_neg h3, if_neg h4, if_neg h5,
                                    if_neg h6, if_neg h7, if_neg h8, if_neg h9, if_neg h10,
                                    if_neg h11, if_neg h12, if_neg h13]
                                rw [heq]
                                refine ⟨?_, ?_, ?_, ?_⟩
                                · intro s' c' ts hh; exact StepOut.noConfusion hh
                                · intro ts stF hh
                                  injection hh with hts hstF herr
                                  exact Bool.noConfusion herr
                                · intro ts stF hh
                                  injection hh with hts hstF herr
                                  subst hts
                                  exact ⟨acc, _, rfl, hacc⟩
                                · intro msg ts hh; exact StepOut.noConfusion hh

theorem Lex.lookingAt_single {l : Lex} {c : Char} :
    l.lookingAt [c] = true ↔ l.source.get? l.position = some c := by
  unfold Lex.lookingAt
  cases hg : l.source.get? l.position with
  | none =>
    rw [List.drop_eq_nil_of_le (List.get?_eq_none.1 hg)]
    simp
  | some d =>
    rw [drop_cons_of_get? hg, List.length_singleton, List.take_succ_cons, List.take_zero]
    simp

theorem length_takeWhile_le_aux {p : Char → Bool} : ∀ (xs : List Char),
    (xs.takeWhile p).length ≤ xs.length := by
  intro xs
  induction xs with
  | nil => simp
  | cons a t ih =>
    rw [List.takeWhile_cons]
    by_cases hp : p a = true
    · rw [if_pos hp]
      simpa using ih
    · rw [if_neg hp]
      simp

theorem Lex.acceptTo_pos_le {chars : List Char} {l : Lex} (hwf : l.wf) :
    l.position + twTo chars l ≤ l.source.length := by
  have h1 : twTo chars l ≤ (l.source.drop l.position).length :=
    length_takeWhile_le_aux _
  rw [List.length_drop] at h1
  have := hwf.2
  omega

theorem countType_nil {τ : TokenType} : countType τ [] = 0 := rfl

/-- Behaviour of a quote state under the invariant: it either emits one quote
token and returns to `OuterState` (leaving the consumed closing delimiter
pending), or terminates with the runaway-quote error. -/
theorem quoteHelper_spec {l : Lex} {st : Option (List Nat)} {q : Char}
    (hwf : l.wf) (he : l.atEOF = false) (hst : slotOK st)
    (hqm : measure 0 [q] = none) :
    (∀ s' c' ts, quoteHelper l st q = .cont s' c' ts →
        Inv s' c' ∧ noErrorTokens ts ∧
        depth st + countType indentTok ts = depth c'.stack + countType dedentTok ts) ∧
    (∀ ts stF, quoteHelper l st q = .stop ts stF false →
        stF = some [0] ∧ noErrorTokens ts ∧
        depth st + countType indentTok ts = countType dedentTok ts ∧
        ∃ pre, ts = pre ++ [⟨eofTok, ""⟩]) ∧
    (∀ ts stF, quoteHelper l st q = .stop ts stF true → errorTerminated ts) ∧
    (∀ msg ts, quoteHelper l st q = .panicStep msg ts →
        msg = measurePanicMsg ∧ noErrorTokens ts) := by
  have hto := Lex.acceptTo_spec [q] (Lex.ignore_wf hwf) he
  set l1 : Lex := { l.ignore with position := l.ignore.position + twTo [q] l.ignore } with hl1
  have hwf1 : l1.wf := ⟨Nat.le_add_right _ _, Lex.acceptTo_pos_le (Lex.ignore_wf hwf)⟩
  have he1 : l1.atEOF = false := he
  by_cases hlook : l1.lookingAt [q] = true
  · have hg : l1.source.get? l1.position = some q := Lex.lookingAt_single.1 hlook
    have hg2 : l1.ignore.source.get? l1.ignore.position = some q := hg
    have hnext : l1.ignore.next = some (q, { l1.ignore with position := l1.ignore.position + 1 }) := by
      unfold Lex.next
      rw [hg2]
    have heq : quoteHelper l st q =
        .cont .outer ⟨{ l1.ignore with position := l1.ignore.position + 1 }, st⟩
          [(emitT l1 quoteTok).2] := by
      simp only [quoteHelper, hto, emitT, hnext]
      rw [if_pos hlook]
    rw [heq]
    refine ⟨?_, ?_, ?_, ?_⟩
    · intro s' c' ts hh
      injection hh with hs hc hts
      subst hs; subst hc; subst hts
      refine ⟨⟨⟨Nat.le_succ _, Lex.get?_some_lt hg⟩, he1, hst, fun _ => Or.inr ?_⟩,
        noError_single (τ := quoteTok) rfl (by decide), ?_⟩
      · have hcc : ({ l1.ignore with position := l1.ignore.position + 1 } : Lex).current =
            l1.ignore.current ++ [q] :=
          Lex.current_consume (Lex.ignore_wf hwf1) hg2
        rw [hcc, Lex.current_ignore, List.nil_append]
        exact hqm
      · rw [countType_single_ne (τ := quoteTok) rfl (by decide),
          countType_single_ne (τ := quoteTok) rfl (by decide)]
    · intro ts stF hh; exact StepOut.noConfusion hh
    · intro ts stF hh; exact StepOut.noConfusion hh
    · intro msg ts hh; exact StepOut.noConfusion hh
  · have heq : quoteHelper l st q =
        .stop [⟨ErrorTok, "Runaway quote: " ++ String.mk l1.current⟩] st true := by
      simp only [quoteHelper, hto]
      rw [if_neg hlook]
    rw [heq]
    refine ⟨?_, ?_, ?_, ?_⟩
    · intro s' c' ts hh; exact StepOut.noConfusion hh
    · intro ts stF hh
      injection hh with hts hstF herr
      exact Bool.noConfusion herr
    · intro ts stF hh
      injection hh with hts hstF herr
      subst hts
      exact ⟨[], _, rfl, noErrorTokens_nil⟩
    · intro msg ts hh; exact StepOut.noConfusion hh

/-! ## One step of the state graph preserves the invariant -/

theorem step_spec {s : SState} {c : Cfg} (hInv : Inv s c) :
    (∀ s' c' ts, step s c = .cont s' c' ts →
        Inv s' c' ∧ noErrorTokens ts ∧
        depth c.stack + countType indentTok ts = depth c'.stack + countType dedentTok ts) ∧
    (∀ ts stF, step s c = .stop ts stF false →
        stF = some [0] ∧ noErrorTokens ts ∧
        depth c.stack + countType indentTok ts = countType dedentTok ts ∧
        ∃ pre, ts = pre ++ [⟨eofTok, ""⟩]) ∧
    (∀ ts stF, step s c = .stop ts stF true → errorTerminated ts) ∧
    (∀ msg ts, step s c = .panicStep msg ts → msg = measurePanicMsg ∧ noErrorTokens ts) := by
  obtain ⟨l, st⟩ := c
  obtain ⟨hwf, he, hst, hpend⟩ := hInv
  cases s with
  | outer =>
    have hout := outerLoop_spec st hst l.m l [] hwf he (hpend rfl) (Nat.le_refl _)
      noErrorTokens_nil countType_nil countType_nil
    obtain ⟨hc, hsf, hse, hp⟩ := hout
    refine ⟨?_, ?_, ?_, ?_⟩
    · intro s' c' ts hh
      obtain ⟨hi, hcs, hne, hci, hcd⟩ := hc s' c' ts hh
      refine ⟨hi, hne, ?_⟩
      rw [hci, hcd, hcs]
    · intro ts stF hh
      exact hsf ts stF hh
    · intro ts stF hh
      exact hse ts stF hh
    · intro msg ts hh
      exact hp msg ts hh
  | newline =>
    obtain ⟨l1, hrun, hsrc1, hst1, he1, hwf1, hpos1⟩ :=
      Lex.acceptRun_ok ['\t', ' '] (by decide) (Lex.ignore_wf hwf) he
    by_cases hlook : l1.lookingAt ['\n'] = true
    · have hg : l1.source.get? l1.position = some '\n' := Lex.lookingAt_single.1 hlook
      have hnext : l1.next = some ('\n', { l1 with position := l1.position + 1 }) := by
        unfold Lex.next
        rw [hg]
      have heq : step .newline ⟨l, st⟩ =
          .cont .newline ⟨{ l1 with position := l1.position + 1 }, st⟩ [] := by
        simp only [step, hrun, hnext]
        rw [if_pos hlook]
      rw [heq]
      refine ⟨?_, ?_, ?_, ?_⟩
      · intro s' c' ts hh
        injection hh with hs hc hts
        subst hs; subst hc; subst hts
        refine ⟨⟨⟨?_, ?_⟩, he1, hst, fun hcon => absurd hcon (by decide)⟩, noErrorTokens_nil, rfl⟩
        · exact Nat.le_succ_of_le hwf1.1
        · exact Lex.get?_some_lt hg
      · intro ts stF hh; exact StepOut.noConfusion hh
      · intro ts stF hh; exact StepOut.noConfusion hh
      · intro msg ts hh; exact StepOut.noConfusion hh
    · rcases updateIndent_spec (l := l1) hst with ⟨hui, _⟩ |
          ⟨size, l2, st', ts, hm2, hui, hsok, hbal, htypes, hsrc2, hsp2, hpp2, hae2, _⟩ |
          ⟨ts, msg, size', hui, htypes, _, _⟩
      · have heq : step .newline ⟨l, st⟩ = .panicStep measurePanicMsg [] := by
          simp only [step, hrun, hui]
          rw [if_neg hlook]
        rw [heq]
        refine ⟨?_, ?_, ?_, ?_⟩
        · intro s' c' ts hh; exact StepOut.noConfusion hh
        · intro ts stF hh; exact StepOut.noConfusion hh
        · intro ts stF hh; exact StepOut.noConfusion hh
        · intro msg ts hh
          injection hh with hmsg hts
          subst hmsg; subst hts
          exact ⟨rfl, noErrorTokens_nil⟩
      · have heq : step .newline ⟨l, st⟩ = .cont .outer ⟨l2, some st'⟩ ts := by
          simp only [step, hrun, hui]
          rw [if_neg hlook]
        rw [heq]
        refine ⟨?_, ?_, ?_, ?_⟩
        · intro s' c' ts0 hh
          injection hh with hs hc hts
          subst hs; subst hc; subst hts
          refine ⟨⟨⟨?_, ?_⟩, ?_, hsok, fun _ => Or.inl hsp2⟩,
            noError_of_indent_types htypes, ?_⟩
          · rw [hsp2]
          · rw [hsrc2, hpp2]
            exact hwf1.2
          · rw [hae2]; exact he1
          · exact hbal
        · intro ts0 stF hh; exact StepOut.noConfusion hh
        · intro ts0 stF hh; exact StepOut.noConfusion hh
        · intro msg ts0 hh; exact StepOut.noConfusion hh
      · have heq : step .newline ⟨l, st⟩ =
            .stop (ts ++ [⟨ErrorTok, msg⟩]) st true := by
          simp only [step, hrun, hui]
          rw [if_neg hlook]
        rw [heq]
        refine ⟨?_, ?_, ?_, ?_⟩
        · intro s' c' ts0 hh; exact StepOut.noConfusion hh
        · intro ts0 stF hh
          injection hh with hts hstF herr
          exact Bool.noConfusion herr
        · intro ts0 stF hh
          injection hh with hts hstF herr
          subst hts
          exact ⟨ts, msg, rfl, noErrorTokens_of_types htypes (by decide)⟩
        · intro msg0 ts0 hh; exact StepOut.noConfusion hh
  | dquote =>
    exact quoteHelper_spec hwf he hst (q := '"') (by decide)
  | squote =>
    exact quoteHelper_spec hwf he hst (q := '\'') (by decide)
  | refState =>
    obtain ⟨l1, hrun, hsrc1, hst1, he1, hwf1, hpos1⟩ :=
      Lex.acceptRun_ok ['.'] (by decide) hwf he
    by_cases hcur : l1.current = ['.', '.', '.']
    · have heq : step .refState ⟨l, st⟩ =
          .cont .outer ⟨(emitT l1 referenceTok).1, st⟩ [(emitT l1 referenceTok).2] := by
        simp only [step, hrun, emitT]
        rw [if_pos hcur]
      rw [heq]
      refine ⟨?_, ?_, ?_, ?_⟩
      · intro s' c' ts hh
        injection hh with hs hc hts
        subst hs; subst hc; subst hts
        refine ⟨⟨Lex.ignore_wf hwf1, he1, hst, fun _ => Or.inl rfl⟩,
          noError_single (τ := referenceTok) rfl (by decide), ?_⟩
        rw [countType_single_ne (τ := referenceTok) rfl (by decide),
          countType_single_ne (τ := referenceTok) rfl (by decide)]
      · intro ts stF hh; exact StepOut.noConfusion hh
      · intro ts stF hh; exact StepOut.noConfusion hh
      · intro msg ts hh; exact StepOut.noConfusion hh
    · have heq : step .refState ⟨l, st⟩ =
          .stop [⟨ErrorTok, "Malformed reference ellipsis: " ++ String.mk l1.current⟩]
            st true := by
        simp only [step, hrun]
        rw [if_neg hcur]
      rw [heq]
      refine ⟨?_, ?_, ?_, ?_⟩
      · intro s' c' ts hh; exact StepOut.noConfusion hh
      · intro ts stF hh
        injection hh with hts hstF herr
        exact Bool.noConfusion herr
      · intro ts stF hh
        injection hh with hts hstF herr
        subst hts
        exact ⟨[], _, rfl, noErrorTokens_nil⟩
      · intro msg ts hh; exact StepOut.noConfusion hh
  | directive =>
    obtain ⟨l1, hrun, hsrc1, hst1, he1, hwf1, hpos1⟩ :=
      Lex.acceptRun_ok uppercaseChars (by decide) hwf he
    have heq : step .directive ⟨l, st⟩ =
        .cont .outer ⟨(emitT l1 directiveTok).1, st⟩ [(emitT l1 directiveTok).2] := by
      simp only [step, hrun, emitT]
    rw [heq]
    refine ⟨?_, ?_, ?_, ?_⟩
    · intro s' c' ts hh
      injection hh with hs hc hts
      subst hs; subst hc; subst hts
      refine ⟨⟨Lex.ignore_wf hwf1, he1, hst, fun _ => Or.inl rfl⟩,
        noError_single (τ := directiveTok) rfl (by decide), ?_⟩
      rw [countType_single_ne (τ := directiveTok) rfl (by decide),
        countType_single_ne (τ := directiveTok) rfl (by decide)]
    · intro ts stF hh; exact StepOut.noConfusion hh
    · intro ts stF hh; exact StepOut.noConfusion hh
    · intro msg ts hh; exact StepOut.noConfusion hh
  | comment =>
    have hto := Lex.acceptTo_spec [] hwf he
    have hwf1 : ({ l with position := l.position + twTo [] l } : Lex).wf :=
      ⟨Nat.le_trans hwf.1 (Nat.le_add_right _ _), Lex.acceptTo_pos_le hwf⟩
    have heq : step .comment ⟨l, st⟩ =
        .cont .outer ⟨(emitT { l with position := l.position + twTo [] l } commentTok).1, st⟩
          [(emitT { l with position := l.position + twTo [] l } commentTok).2] := by
      simp only [step, hto, emitT]
    rw [heq]
    refine ⟨?_, ?_, ?_, ?_⟩
    · intro s' c' ts hh
      injection hh with hs hc hts
      subst hs; subst hc; subst hts
      refine ⟨⟨Lex.ignore_wf hwf1, he, hst, fun _ => Or.inl rfl⟩,
        noError_single (τ := commentTok) rfl (by decide), ?_⟩
      rw [countType_single_ne (τ := commentTok) rfl (by decide),
        countType_single_ne (τ := commentTok) rfl (by decide)]
    · intro ts stF hh; exact StepOut.noConfusion hh
    · intro ts stF hh; exact StepOut.noConfusion hh
    · intro msg ts hh; exact StepOut.noConfusion hh
  | identifier =>
    obtain ⟨l1, hrun, hsrc1, hst1, he1, hwf1, hpos1⟩ :=
      identLoop_ok l.m l hwf he (Nat.le_refl _)
    have heq : step .identifier ⟨l, st⟩ =
        .cont .outer ⟨(emitT l1 identTok).1, st⟩ [(emitT l1 identTok).2] := by
      simp only [step, hrun, emitT]
    rw [heq]
    refine ⟨?_, ?_, ?_, ?_⟩
    · intro s' c' ts hh
      injection hh with hs hc hts
      subst hs; subst hc; subst hts
      refine ⟨⟨Lex.ignore_wf hwf1, he1, hst, fun _ => Or.inl rfl⟩,
        noError_single (τ := identTok) rfl (by decide), ?_⟩
      rw [countType_single_ne (τ := identTok) rfl (by decide),
        countType_single_ne (τ := identTok) rfl (by decide)]
    · intro ts stF hh; exact StepOut.noConfusion hh
    · intro ts stF hh; exact StepOut.noConfusion hh
    · intro msg ts hh; exact StepOut.noConfusion hh

/-! ## Whole-run invariants -/

theorem run_spec : ∀ (fuel : Nat) (s : SState) (c : Cfg) (acc : List Token), Inv s c →
    (∀ ts stF, run fuel s c acc = (ts, .halt stF) → stF = some [0] ∧
        ∃ new, ts = acc ++ new ∧
          depth c.stack + countType indentTok new = countType dedentTok new ∧
          ∃ pre, new = pre ++ [⟨eofTok, ""⟩]) ∧
    (∀ ts msg, run fuel s c acc = (ts, .panicked msg) → msg = measurePanicMsg) ∧
    (∀ ts o, run fuel s c acc = (ts, o) → ∃ new, ts = acc ++ new ∧
        (o = .errored → errorTerminated new) ∧ (¬ o = .errored → noErrorTokens new)) := by
  intro fuel
  induction fuel with
  | zero =>
    intro s c acc _
    refine ⟨?_, ?_, ?_⟩
    · intro ts stF hh
      simp only [run] at hh
      injection hh with h1 h2
      exact Outcome.noConfusion h2
    · intro ts msg hh
      simp only [run] at hh
      injection hh with h1 h2
      exact Outcome.noConfusion h2
    · intro ts o hh
      simp only [run] at hh
      injection hh with h1 h2
      subst h1; subst h2
      refine ⟨[], by rw [List.append_nil], ?_, fun _ => noErrorTokens_nil⟩
      intro hcon
      exact Outcome.noConfusion hcon
  | succ fuel ih =>
    intro s c acc hInv
    obtain ⟨hc, hsf, hse, hp⟩ := step_spec hInv
    cases hstep : step s c with
    | cont s' c' ts1 =>
      obtain ⟨hInv', hne1, hbal1⟩ := hc s' c' ts1 hstep
      obtain ⟨ihh, ihp, ihe⟩ := ih s' c' (acc ++ ts1) hInv'
      have hrun : run (fuel+1) s c acc = run fuel s' c' (acc ++ ts1) := by
        simp only [run, hstep]
      refine ⟨?_, ?_, ?_⟩
      · intro ts stF hh
        rw [hrun] at hh
        obtain ⟨hstF, new2, hnew2, hbal2, pre2, hpre⟩ := ihh ts stF hh
        refine ⟨hstF, ts1 ++ new2, ?_, ?_, ⟨ts1 ++ pre2, ?_⟩⟩
        · rw [hnew2, List.append_assoc]
        · rw [countType_append, countType_append]
          omega
        · rw [hpre, List.append_assoc]
      · intro ts msg hh
        rw [hrun] at hh
        exact ihp ts msg hh
      · intro ts o hh
        rw [hrun] at hh
        obtain ⟨new2, hnew2, he1, he2⟩ := ihe ts o hh
        refine ⟨ts1 ++ new2, ?_, ?_, ?_⟩
        · rw [hnew2, List.append_assoc]
        · intro hcon
          exact errorTerminated_append hne1 (he1 hcon)
        · intro hcon
          exact noErrorTokens_append hne1 (he2 hcon)
    | stop ts1 stF1 isErr =>
      cases isErr with
      | false =>
        obtain ⟨hstF, hne1, hbal1, hpre1⟩ := hsf ts1 stF1 hstep
        have hrun : run (fuel+1) s c acc = (acc ++ ts1, .halt stF1) := by
          simp only [run, hstep]
          rfl
        refine ⟨?_, ?_, ?_⟩
        · intro ts stF hh
          rw [hrun] at hh
          injection hh with h1 h2
          subst h1
          injection h2 with h3
          subst h3
          exact ⟨hstF, ts1, rfl, hbal1, hpre1⟩
        · intro ts msg hh
          rw [hrun] at hh
          injection hh with h1 h2
          exact Outcome.noConfusion h2
        · intro ts o hh
          rw [hrun] at hh
          injection hh with h1 h2
          subst h1; subst h2
          exact ⟨ts1, rfl, fun hcon => Outcome.noConfusion hcon, fun _ => hne1⟩
      | true =>
        have herrt := hse ts1 stF1 hstep
        have hrun : run (fuel+1) s c acc = (acc ++ ts1, .errored) := by
          simp only [run, hstep]
          rfl
        refine ⟨?_, ?_, ?_⟩
        · intro ts stF hh
          rw [hrun] at hh
          injection hh with h1 h2
          exact Outcome.noConfusion h2
        · intro ts msg hh
          rw [hrun] at hh
          injection hh with h1 h2
          exact Outcome.noConfusion h2
        · intro ts o hh
          rw [hrun] at hh
          injection hh with h1 h2
          subst h1; subst h2
          exact ⟨ts1, rfl, fun _ => herrt, fun hcon => absurd rfl hcon⟩
    | panicStep msg1 ts1 =>
      obtain ⟨hmsg, hne1⟩ := hp msg1 ts1 hstep
      have hrun : run (fuel+1) s c acc = (acc ++ ts1, .panicked msg1) := by
        simp only [run, hstep]
      refine ⟨?_, ?_, ?_⟩
      · intro ts stF hh
        rw [hrun] at hh
        injection hh with h1 h2
        exact Outcome.noConfusion h2
      · intro ts msg hh
        rw [hrun] at hh
        injection hh with h1 h2
        subst h1
        injection h2 with h3
        subst h3
        exact hmsg
      · intro ts o hh
        rw [hrun] at hh
        injection hh with h1 h2
        subst h1; subst h2
        exact ⟨ts1, rfl, fun hcon => Outcome.noConfusion hcon, fun _ => hne1⟩


/-! ## Single-transition run equations (used to evaluate concrete sessions) -/

theorem run_cont_step (fuel : Nat) {s s' : SState} {c c' : Cfg} {u a : List Token}
    (h : step s c = .cont s' c' u) :
    run (fuel + 1) s c a = run fuel s' c' (a ++ u) := by
  simp only [run, h]

theorem run_stop_step (fuel : Nat) {s : SState} {c : Cfg} {u a : List Token}
    {f : Option (List Nat)} {b : Bool} (h : step s c = .stop u f b) :
    run (fuel + 1) s c a = (a ++ u, if b then .errored else .halt f) := by
  simp only [run, h]

theorem run_panic_step (fuel : Nat) {s : SState} {c : Cfg} {u a : List Token}
    {m : String} (h : step s c = .panicStep m u) :
    run (fuel + 1) s c a = (a ++ u, .panicked m) := by
  simp only [run, h]

/-! ## Concrete sessions, evaluated one transition at a time -/

theorem take_length_takeWhile {p : Char → Bool} : ∀ (xs : List Char),
    xs.take (xs.takeWhile p).length = xs.takeWhile p := by
  intro xs
  induction xs with
  | nil => rfl
  | cons a t ih =>
    by_cases hp : p a = true
    · simp only [List.takeWhile_cons, if_pos hp, List.length_cons, List.take_succ_cons, ih]
    · simp only [List.takeWhile_cons, if_neg hp, List.length_nil, List.take_zero]

theorem scanInconsistentDedent : scan "a\n    b\n  c" 100 =
    ([⟨identTok, "a"⟩, ⟨indentTok, "    "⟩, ⟨identTok, "b"⟩, ⟨dedentTok, "  "⟩, ⟨ErrorTok, "Inconsistent dedent. Expecting 0 but found 2."⟩],
     .errored) := by
  have e0 : step SState.newline ⟨⟨"a\n    b\n  c".data, 0, 0, false⟩, none⟩ = .cont SState.outer ⟨⟨"a\n    b\n  c".data, 0, 0, false⟩, (some [0])⟩ [] := rfl
  have e1 : step SState.outer ⟨⟨"a\n    b\n  c".data, 0, 0, false⟩, (some [0])⟩ = .cont SState.identifier ⟨⟨"a\n    b\n  c".data, 0, 1, false⟩, (some [0])⟩ [] := rfl
  have e2 : step SState.identifier ⟨⟨"a\n    b\n  c".data, 0, 1, false⟩, (some [0])⟩ = .cont SState.outer ⟨⟨"a\n    b\n  c".data, 1, 1, false⟩, (some [0])⟩ [⟨identTok, "a"⟩] := rfl
  have e3 : step SState.outer ⟨⟨"a\n    b\n  c".data, 1, 1, false⟩, (some [0])⟩ = .cont SState.newline ⟨⟨"a\n    b\n  c".data, 1, 2, false⟩, (some [0])⟩ [] := rfl
  have e4 : step SState.newline ⟨⟨"a\n    b\n  c".data, 1, 2, false⟩, (some [0])⟩ = .cont SState.outer ⟨⟨"a\n    b\n  c".data, 6, 6, false⟩, (some [4, 0])⟩ [⟨indentTok, "    "⟩] := rfl
  have e5 : step SState.outer ⟨⟨"a\n    b\n  c".data, 6, 6, false⟩, (some [4, 0])⟩ = .cont SState.identifier ⟨⟨"a\n    b\n  c".data, 6, 7, false⟩, (some [4, 0])⟩ [] := rfl
  have e6 : step SState.identifier ⟨⟨"a\n    b\n  c".data, 6, 7, false⟩, (some [4, 0])⟩ = .cont SState.outer ⟨⟨"a\n    b\n  c".data, 7, 7, false⟩, (some [4, 0])⟩ [⟨identTok, "b"⟩] := rfl
  have e7 : step SState.outer ⟨⟨"a\n    b\n  c".data, 7, 7, false⟩, (some [4, 0])⟩ = .cont SState.newline ⟨⟨"a\n    b\n  c".data, 7, 8, false⟩, (some [4, 0])⟩ [] := rfl
  have e8 : step SState.newline ⟨⟨"a\n    b\n  c".data, 7, 8, false⟩, (some [4, 0])⟩ = .stop [⟨dedentTok, "  "⟩, ⟨ErrorTok, "Inconsistent dedent. Expecting 0 but found 2."⟩] (some [4, 0]) true := rfl
  exact (run_cont_step 99 e0).trans <| (run_cont_step 98 e1).trans <| (run_cont_step 97 e2).trans <| (run_cont_step 96 e3).trans <| (run_cont_step 95 e4).trans <| (run_cont_step 94 e5).trans <| (run_cont_step 93 e6).trans <| (run_cont_step 92 e7).trans <| (run_stop_step 91 e8)

theorem scanSimpleIndent : scan "a\n    b" 100 =
    ([⟨identTok, "a"⟩, ⟨indentTok, "    "⟩, ⟨identTok, "b"⟩, ⟨dedentTok, ""⟩, ⟨eofTok, ""⟩],
     .halt (some [0])) := by
  have e0 : step SState.newline ⟨⟨"a\n    b".data, 0, 0, false⟩, none⟩ = .cont SState.outer ⟨⟨"a\n    b".data, 0, 0, false⟩, (some [0])⟩ [] := rfl
  have e1 : step SState.outer ⟨⟨"a\n    b".data, 0, 0, false⟩, (some [0])⟩ = .cont SState.identifier ⟨⟨"a\n    b".data, 0, 1, false⟩, (some [0])⟩ [] := rfl
  have e2 : step SState.identifier ⟨⟨"a\n    b".data, 0, 1, false⟩, (some [0])⟩ = .cont SState.outer ⟨⟨"a\n    b".data, 1, 1, false⟩, (some [0])⟩ [⟨identTok, "a"⟩] := rfl
  have e3 : step SState.outer ⟨⟨"a\n    b".data, 1, 1, false⟩, (some [0])⟩ = .cont SState.newline ⟨⟨"a\n    b".data, 1, 2, false⟩, (some [0])⟩ [] := rfl
  have e4 : step SState.newline ⟨⟨"a\n    b".data, 1, 2, false⟩, (some [0])⟩ = .cont SState.outer ⟨⟨"a\n    b".data, 6, 6, false⟩, (some [4, 0])⟩ [⟨indentTok, "    "⟩] := rfl
  have e5 : step SState.outer ⟨⟨"a\n    b".data, 6, 6, false⟩, (some [4, 0])⟩ = .cont SState.identifier ⟨⟨"a\n    b".data, 6, 7, false⟩, (some [4, 0])⟩ [] := rfl
  have e6 : step SState.identifier ⟨⟨"a\n    b".data, 6, 7, false⟩, (some [4, 0])⟩ = .cont SState.outer ⟨⟨"a\n    b".data, 7, 7, false⟩, (some [4, 0])⟩ [⟨identTok, "b"⟩] := rfl
  have e7 : step SState.outer ⟨⟨"a\n    b".data, 7, 7, false⟩, (some [4, 0])⟩ = .stop [⟨dedentTok, ""⟩, ⟨eofTok, ""⟩] (some [0]) false := rfl
  exact (run_cont_step 99 e0).trans <| (run_cont_step 98 e1).trans <| (run_cont_step 97 e2).trans <| (run_cont_step 96 e3).trans <| (run_cont_step 95 e4).trans <| (run_cont_step 94 e5).trans <| (run_cont_step 93 e6).trans <| (run_stop_step 92 e7)

theorem scanAttrQuote : scan "attr=\"one\"" 100 =
    ([⟨identTok, "attr"⟩, ⟨equalsTok, "="⟩, ⟨quoteTok, "one"⟩],
     .panicked "Bad rune found in indent") := by
  have e0 : step SState.newline ⟨⟨"attr=\"one\"".data, 0, 0, false⟩, none⟩ = .cont SState.outer ⟨⟨"attr=\"one\"".data, 0, 0, false⟩, (some [0])⟩ [] := rfl
  have e1 : step SState.outer ⟨⟨"attr=\"one\"".data, 0, 0, false⟩, (some [0])⟩ = .cont SState.identifier ⟨⟨"attr=\"one\"".data, 0, 1, false⟩, (some [0])⟩ [] := rfl
  have e2 : step SState.identifier ⟨⟨"attr=\"one\"".data, 0, 1, false⟩, (some [0])⟩ = .cont SState.outer ⟨⟨"attr=\"one\"".data, 4, 4, false⟩, (some [0])⟩ [⟨identTok, "attr"⟩] := rfl
  have e3 : step SState.outer ⟨⟨"attr=\"one\"".data, 4, 4, false⟩, (some [0])⟩ = .cont SState.dquote ⟨⟨"attr=\"one\"".data, 5, 6, false⟩, (some [0])⟩ [⟨equalsTok, "="⟩] := rfl
  have e4 : step SState.dquote ⟨⟨"attr=\"one\"".data, 5, 6, false⟩, (some [0])⟩ = .cont SState.outer ⟨⟨"attr=\"one\"".data, 9, 10, false⟩, (some [0])⟩ [⟨quoteTok, "one"⟩] := rfl
  have e5 : step SState.outer ⟨⟨"attr=\"one\"".data, 9, 10, false⟩, (some [0])⟩ = .panicStep "Bad rune found in indent" [] := rfl
  exact (run_cont_step 99 e0).trans <| (run_cont_step 98 e1).trans <| (run_cont_step 97 e2).trans <| (run_cont_step 96 e3).trans <| (run_cont_step 95 e4).trans <| (run_panic_step 94 e5)

theorem scanNulInQuote : scan "\"a\x00b\"" 100 =
    ([⟨ErrorTok, "Runaway quote: a"⟩],
     .errored) := by
  have e0 : step SState.newline ⟨⟨"\"a\x00b\"".data, 0, 0, false⟩, none⟩ = .cont SState.outer ⟨⟨"\"a\x00b\"".data, 0, 0, false⟩, (some [0])⟩ [] := rfl
  have e1 : step SState.outer ⟨⟨"\"a\x00b\"".data, 0, 0, false⟩, (some [0])⟩ = .cont SState.dquote ⟨⟨"\"a\x00b\"".data, 0, 1, false⟩, (some [0])⟩ [] := rfl
  have e2 : step SState.dquote ⟨⟨"\"a\x00b\"".data, 0, 1, false⟩, (some [0])⟩ = .stop [⟨ErrorTok, "Runaway quote: a"⟩] (some [0]) true := rfl
  exact (run_cont_step 99 e0).trans <| (run_cont_step 98 e1).trans <| (run_stop_step 97 e2)

theorem scanNulOuter : scan "a\x00b(" 100 =
    ([⟨identTok, "a"⟩],
     .panicked "Bad rune found in indent") := by
  have e0 : step SState.newline ⟨⟨"a\x00b(".data, 0, 0, false⟩, none⟩ = .cont SState.outer ⟨⟨"a\x00b(".data, 0, 0, false⟩, (some [0])⟩ [] := rfl
  have e1 : step SState.outer ⟨⟨"a\x00b(".data, 0, 0, false⟩, (some [0])⟩ = .cont SState.identifier ⟨⟨"a\x00b(".data, 0, 1, false⟩, (some [0])⟩ [] := rfl
  have e2 : step SState.identifier ⟨⟨"a\x00b(".data, 0, 1, false⟩, (some [0])⟩ = .cont SState.outer ⟨⟨"a\x00b(".data, 1, 1, false⟩, (some [0])⟩ [⟨identTok, "a"⟩] := rfl
  have e3 : step SState.outer ⟨⟨"a\x00b(".data, 1, 1, false⟩, (some [0])⟩ = .panicStep "Bad rune found in indent" [] := rfl
  exact (run_cont_step 99 e0).trans <| (run_cont_step 98 e1).trans <| (run_cont_step 97 e2).trans <| (run_panic_step 96 e3)

theorem scanEmptyQuoteAtEOF : scan "\"\"" 100 =
    ([⟨quoteTok, ""⟩],
     .panicked "Bad rune found in indent") := by
  have e0 : step SState.newline ⟨⟨"\"\"".data, 0, 0, false⟩, none⟩ = .cont SState.outer ⟨⟨"\"\"".data, 0, 0, false⟩, (some [0])⟩ [] := rfl
  have e1 : step SState.outer ⟨⟨"\"\"".data, 0, 0, false⟩, (some [0])⟩ = .cont SState.dquote ⟨⟨"\"\"".data, 0, 1, false⟩, (some [0])⟩ [] := rfl
  have e2 : step SState.dquote ⟨⟨"\"\"".data, 0, 1, false⟩, (some [0])⟩ = .cont SState.outer ⟨⟨"\"\"".data, 1, 2, false⟩, (some [0])⟩ [⟨quoteTok, ""⟩] := rfl
  have e3 : step SState.outer ⟨⟨"\"\"".data, 1, 2, false⟩, (some [0])⟩ = .panicStep "Bad rune found in indent" [] := rfl
  exact (run_cont_step 99 e0).trans <| (run_cont_step 98 e1).trans <| (run_cont_step 97 e2).trans <| (run_panic_step 96 e3)

theorem scanDoubleDot : scan ".." 100 =
    ([⟨ErrorTok, "Malformed reference ellipsis: .."⟩],
     .errored) := by
  have e0 : step SState.newline ⟨⟨"..".data, 0, 0, false⟩, none⟩ = .cont SState.outer ⟨⟨"..".data, 0, 0, false⟩, (some [0])⟩ [] := rfl
  have e1 : step SState.outer ⟨⟨"..".data, 0, 0, false⟩, (some [0])⟩ = .cont SState.refState ⟨⟨"..".data, 0, 1, false⟩, (some [0])⟩ [] := rfl
  have e2 : step SState.refState ⟨⟨"..".data, 0, 1, false⟩, (some [0])⟩ = .stop [⟨ErrorTok, "Malformed reference ellipsis: .."⟩] (some [0]) true := rfl
  exact (run_cont_step 99 e0).trans <| (run_cont_step 98 e1).trans <| (run_stop_step 97 e2)

/-- The initial configuration of a session satisfies the invariant. -/
theorem Inv_init (src : String) :
    Inv .newline ⟨{ source := src.data, start := 0, position := 0, atEOF := false }, none⟩ := by
  refine ⟨⟨Nat.le_refl _, Nat.zero_le _⟩, rfl, trivial, ?_⟩
  intro hcon
  exact absurd hcon (by decide)

/-! ## Claim theorems -/

/-- Unicode scalar values: code points outside the surrogate range. -/
def isUnicodeScalarValue (n : Nat) : Bool :=
  decide (n < 0xD800) || (decide (0xE000 ≤ n) && decide (n ≤ 0x10FFFF))

/-- Claim C2, counterexample: at a cursor at end of input, `next` does return
the reserved sentinel and mark `atEOF`, but the sentinel `EOFRune = 0` IS a
valid Unicode scalar value (U+0000), contradicting the claim that it is not;
it is literally the NUL character. -/
theorem C2_cex :
    (⟨['a'], 0, 1, false⟩ : Lex).next = some (EOFRune, (⟨['a'], 0, 1, true⟩ : Lex)) ∧
    isUnicodeScalarValue EOFRune.toNat = true ∧ EOFRune = '\x00' := by
  refine ⟨?_, by decide, by decide⟩
  rfl

/-- Claim C2, amended: for every cursor at end of input whose `atEOF` flag is
not yet set, `next()` returns the reserved end-of-input sentinel `EOFRune`
(U+0000 — a valid Unicode scalar value, identical to a literal NUL) and marks
the cursor's `atEOF` flag. -/
theorem C2_amended (l : Lex) (hend : l.source.length ≤ l.position)
    (he : l.atEOF = false) :
    l.next = some (EOFRune, { l with atEOF := true }) ∧
    ({ l with atEOF := true } : Lex).atEOF = true ∧
    isUnicodeScalarValue EOFRune.toNat = true := by
  refine ⟨?_, rfl, by decide⟩
  unfold Lex.next
  rw [List.get?_eq_none.2 hend, if_neg (by simp [he])]

/-- Witness for C2_amended at a concrete cursor at end of input. -/
theorem C2_amended_witness :
    (⟨['a'], 0, 1, false⟩ : Lex).next =
      some (EOFRune, { (⟨['a'], 0, 1, false⟩ : Lex) with atEOF := true }) ∧
    ({ (⟨['a'], 0, 1, false⟩ : Lex) with atEOF := true } : Lex).atEOF = true ∧
    isUnicodeScalarValue EOFRune.toNat = true :=
  C2_amended ⟨['a'], 0, 1, false⟩ (by decide) rfl

/-- Claim C3: for every source whose scan runs to normal completion (the state
graph halts; in particular no error token was produced — see `C5`), the
indent/dedent tokens are balanced: the final indentation measurement against
width 0 closes all open levels, the number of dedent tokens equals the number
of indent tokens, the indent stack is back at its base `[0]` when the
end-of-input token is emitted, and that end-of-input token is the final token
of the stream. -/
theorem C3_indent_dedent_balanced (src : String) (fuel : Nat) (ts : List Token)
    (stF : Option (List Nat)) (h : scan src fuel = (ts, .halt stF)) :
    stF = some [0] ∧ countType dedentTok ts = countType indentTok ts ∧
    ∃ pre, ts = pre ++ [⟨eofTok, ""⟩] := by
  obtain ⟨hh, -, -⟩ := run_spec fuel .newline _ [] (Inv_init src)
  obtain ⟨h1, new, hnew, h2, h3⟩ := hh ts stF h
  rw [List.nil_append] at hnew
  subst hnew
  refine ⟨h1, ?_, h3⟩
  simp only [depth, Nat.zero_add] at h2
  omega

/-- Witness for C3 on the source `"a\n    b"`, whose scan emits one indent and
one trailing dedent before the end-of-input token. -/
theorem C3_witness :
    (some [0] : Option (List Nat)) = some [0] ∧
    countType dedentTok
      [⟨identTok, "a"⟩, ⟨indentTok, "    "⟩, ⟨identTok, "b"⟩, ⟨dedentTok, ""⟩,
        ⟨eofTok, ""⟩] =
      countType indentTok
        [⟨identTok, "a"⟩, ⟨indentTok, "    "⟩, ⟨identTok, "b"⟩, ⟨dedentTok, ""⟩,
          ⟨eofTok, ""⟩] ∧
    ∃ pre, [⟨identTok, "a"⟩, ⟨indentTok, "    "⟩, ⟨identTok, "b"⟩, ⟨dedentTok, ""⟩,
        (⟨eofTok, ""⟩ : Token)] = pre ++ [⟨eofTok, ""⟩] :=
  C3_indent_dedent_balanced "a\n    b" 100
    [⟨identTok, "a"⟩, ⟨indentTok, "    "⟩, ⟨identTok, "b"⟩, ⟨dedentTok, ""⟩, ⟨eofTok, ""⟩]
    (some [0]) scanSimpleIndent



/-- Claim C4: the indentation width of a whitespace string is computed left to
right, each space adding 1 and each tab advancing the width to the next
multiple of 4 (`width + (4 - width % 4) = 4 * (width / 4) + 4`, which is a
multiple of 4, strictly greater than the width, and at most width + 4); in
particular a single tab measures to 4 and two spaces followed by a tab also
measure to 4. -/
theorem C4_measure_rule :
    (∀ (cs : List Char) (w : Nat), measure 0 cs = some w →
       measure 0 (cs ++ [' ']) = some (w + 1) ∧
       measure 0 (cs ++ ['\t']) = some (4 * (w / 4) + 4) ∧
       w < 4 * (w / 4) + 4 ∧ 4 * (w / 4) + 4 ≤ w + 4 ∧ (4 * (w / 4) + 4) % 4 = 0) ∧
    measure 0 ['\t'] = some 4 ∧ measure 0 [' ', ' ', '\t'] = some 4 := by
  refine ⟨?_, by decide, by decide⟩
  intro cs w h
  refine ⟨?_, ?_, by omega, by omega, by omega⟩
  · rw [measure_append, h]
    simp [measure]
  · rw [measure_append, h]
    show measure w ['\t'] = _
    have hstep : measure w ['\t'] = some (w + (4 - w % 4)) := by
      simp [measure]
    rw [hstep]
    simp only [Option.some.injEq]
    omega

/-- Witness for C4 at the one-space string (width 1). -/
theorem C4_witness :
    (measure 0 [' ', ' '] = some 2 ∧
     measure 0 [' ', '\t'] = some 4 ∧
     1 < 4 * (1 / 4) + 4 ∧ 4 * (1 / 4) + 4 ≤ 1 + 4 ∧ (4 * (1 / 4) + 4) % 4 = 0) ∧
    measure 0 ['\t'] = some 4 ∧ measure 0 [' ', ' ', '\t'] = some 4 := by
  have h := C4_measure_rule
  have h1 := h.1 [' '] 1 (by decide)
  have h2 : (4 : Nat) * (1 / 4) + 4 = 4 := by decide
  refine ⟨⟨?_, ?_, h1.2.2.1, h1.2.2.2.1, h1.2.2.2.2⟩, h.2⟩
  · simpa using h1.1
  · have := h1.2.1
    rw [h2] at this
    simpa using this

/-- Claim C5: in every lexing session, at most one token carrying the reserved
error type is delivered, and when one is delivered it is the last token of the
stream — the producer stops, and no further token (in particular no
end-of-input token) follows. -/
theorem C5_single_terminal_error (src : String) (fuel : Nat) (ts : List Token)
    (o : Outcome) (h : scan src fuel = (ts, o)) :
    (o = .errored → errorTerminated ts) ∧ (¬ o = .errored → noErrorTokens ts) := by
  obtain ⟨-, -, he⟩ := run_spec fuel .newline _ [] (Inv_init src)
  obtain ⟨new, hnew, he1, he2⟩ := he ts o h
  rw [List.nil_append] at hnew
  subst hnew
  exact ⟨he1, he2⟩

/-- Witness for C5 on the malformed-reference source `".."`, which terminates
with exactly one error token, in final position. -/
theorem C5_witness :
    (Outcome.errored = .errored →
      errorTerminated [⟨ErrorTok, "Malformed reference ellipsis: .."⟩]) ∧
    (¬ Outcome.errored = .errored →
      noErrorTokens [⟨ErrorTok, "Malformed reference ellipsis: .."⟩]) :=
  C5_single_terminal_error ".." 100 [⟨ErrorTok, "Malformed reference ellipsis: .."⟩]
    .errored scanDoubleDot

/-- Claim C6, counterexample: on the source `"a<NUL>b"` the matching closing
double quote occurs before any newline and before end of input, yet the quote
state stops at the interior NUL character, emits no quote token, and
terminates with the runaway-quote error — so "the matching closing delimiter
occurs before a newline or end of input" is not equivalent to emitting a
quote token: an interior NUL also ends the body. -/
theorem C6_cex :
    scan "\"a\x00b\"" 100 = ([⟨ErrorTok, "Runaway quote: a"⟩], .errored) ∧
    '"' ∈ ("\"a\x00b\"".data.drop 1) ∧
    ¬ '\n' ∈ "\"a\x00b\"".data ∧
    countType quoteTok [⟨ErrorTok, "Runaway quote: a"⟩] = 0 :=
  ⟨scanNulInQuote, by decide, by decide, rfl⟩

/-- Claim C6, amended: the quote state drops the opening delimiter and scans
the body up to the first stop character (the closing delimiter, a newline, a
NUL, or end of input).  It emits one quote token whose value is exactly the
body (both delimiters excluded) and returns to Outer if and only if that stop
character is the matching closing delimiter; otherwise it terminates with the
runaway-quote error token.  Scanning `attr="one"` emits exactly an identifier
token `attr`, an equals token `=` and a quote token `one`; the session then
panics at end of input because the consumed closing delimiter is left pending
(see `C8`), rather than completing normally. -/
theorem C6_amended (l : Lex) (st : Option (List Nat)) (q : Char)
    (hwf : l.wf) (he : l.atEOF = false) :
    (l.source.get? (l.position + twTo [q] l) = some q →
      ∃ l', quoteHelper l st q = .cont .outer ⟨l', st⟩
        [⟨quoteTok, String.mk ((l.source.drop l.position).takeWhile
            (fun c => decide (c ∉ '\n' :: '\x00' :: [q])))⟩]) ∧
    (¬ l.source.get? (l.position + twTo [q] l) = some q →
      quoteHelper l st q = .stop
        [⟨ErrorTok, "Runaway quote: " ++ String.mk ((l.source.drop l.position).takeWhile
            (fun c => decide (c ∉ '\n' :: '\x00' :: [q])))⟩] st true) ∧
    scan "attr=\"one\"" 100 =
      ([⟨identTok, "attr"⟩, ⟨equalsTok, "="⟩, ⟨quoteTok, "one"⟩],
        .panicked measurePanicMsg) := by
  have hto := Lex.acceptTo_spec [q] (Lex.ignore_wf hwf) he
  set l1 : Lex := { l.ignore with position := l.ignore.position + twTo [q] l.ignore } with hl1
  have hcur : l1.current = (l.source.drop l.position).takeWhile
      (fun c => decide (c ∉ '\n' :: '\x00' :: [q])) := by
    show (l.source.drop l.position).take (l.position + twTo [q] l.ignore - l.position) = _
    rw [Nat.add_sub_cancel_left]
    exact take_length_takeWhile _
  refine ⟨?_, ?_, scanAttrQuote⟩
  · intro hq
    have hlook : l1.lookingAt [q] = true := Lex.lookingAt_single.2 hq
    have hg2 : l1.ignore.source.get? l1.ignore.position = some q := hq
    have hnext : l1.ignore.next =
        some (q, { l1.ignore with position := l1.ignore.position + 1 }) := by
      unfold Lex.next
      rw [hg2]
    refine ⟨{ l1.ignore with position := l1.ignore.position + 1 }, ?_⟩
    show quoteHelper l st q = _
    simp only [quoteHelper, hto, emitT, hnext]
    rw [if_pos hlook, hcur]
  · intro hq
    have hlook : ¬ l1.lookingAt [q] = true := fun hl => hq (Lex.lookingAt_single.1 hl)
    show quoteHelper l st q = _
    simp only [quoteHelper, hto]
    rw [if_neg hlook, hcur]

/-- Witness for C6_amended at the cursor of the session `"one"` just after the
opening double quote was consumed. -/
theorem C6_witness :
    (("\"one\"".data : List Char).get?
        (1 + twTo ['"'] ⟨"\"one\"".data, 0, 1, false⟩) = some '"' →
      ∃ l', quoteHelper ⟨"\"one\"".data, 0, 1, false⟩ (some [0]) '"' =
        .cont .outer ⟨l', some [0]⟩
          [⟨quoteTok, String.mk (("\"one\"".data.drop 1).takeWhile
              (fun c => decide (c ∉ '\n' :: '\x00' :: ['"'])))⟩]) ∧
    (¬ ("\"one\"".data : List Char).get?
        (1 + twTo ['"'] ⟨"\"one\"".data, 0, 1, false⟩) = some '"' →
      quoteHelper ⟨"\"one\"".data, 0, 1, false⟩ (some [0]) '"' = .stop
        [⟨ErrorTok, "Runaway quote: " ++ String.mk (("\"one\"".data.drop 1).takeWhile
            (fun c => decide (c ∉ '\n' :: '\x00' :: ['"'])))⟩] (some [0]) true) ∧
    scan "attr=\"one\"" 100 =
      ([⟨identTok, "attr"⟩, ⟨equalsTok, "="⟩, ⟨quoteTok, "one"⟩],
        .panicked measurePanicMsg) :=
  C6_amended ⟨"\"one\"".data, 0, 1, false⟩ (some [0]) '"' ⟨by decide, by decide⟩ rfl

/-- Claim C7: once `NextToken` has returned the end-of-stream indicator, every
subsequent call returns the same indicator and the stream state is unchanged —
production is never resumed.  (The closed channel is modelled as the exhausted
list of produced tokens.) -/
theorem C7_end_of_stream_idempotent (s : TokenStream)
    (h : (nextTokenM s).1 = none) :
    (nextTokenM s).2 = s ∧ nextTokenM ((nextTokenM s).2) = (none, s) := by
  obtain ⟨ts⟩ := s
  cases ts with
  | nil => exact ⟨rfl, rfl⟩
  | cons t ts' => simp [nextTokenM] at h

/-- Witness for C7 at the drained stream of a finished session. -/
theorem C7_witness :
    (nextTokenM ⟨[]⟩).2 = ⟨[]⟩ ∧ nextTokenM ((nextTokenM ⟨[]⟩).2) = (none, ⟨[]⟩) :=
  C7_end_of_stream_idempotent ⟨[]⟩ rfl

/-- Claim C8, counterexample: the scanner CAN panic: on the two-character
source `""` (an empty double-quoted literal at end of input), the quote state
consumes the closing delimiter without dropping it, the Outer state then hits
end of input with the quote character pending, and the width measurement
panics ("Bad rune found in indent") after the quote token was emitted — so the
panic branch in `measure` is reachable and the failure is not communicated as
an error token. -/
theorem C8_cex :
    scan "\"\"" 100 = ([⟨quoteTok, ""⟩], .panicked measurePanicMsg) := scanEmptyQuoteAtEOF

/-- Claim C8, amended: the panic in the cursor's `next()` ("Next attempted to
move past end of source.") and the slice-index panics are unreachable from the
scanner's initial state: the only panic a run can ever end in is the
indentation-measure panic ("Bad rune found in indent"), reachable only through
a literal NUL reaching the Outer dispatch or a closing quote delimiter pending
at end of input; every other failure is an in-band error token. -/
theorem C8_amended_only_measure_panic (src : String) (fuel : Nat)
    (ts : List Token) (msg : String)
    (h : scan src fuel = (ts, .panicked msg)) : msg = measurePanicMsg := by
  obtain ⟨-, hp, -⟩ := run_spec fuel .newline _ [] (Inv_init src)
  exact hp ts msg h

/-- Witness for C8_amended at the panicking source of `C8_cex`. -/
theorem C8_amended_witness : measurePanicMsg = measurePanicMsg :=
  C8_amended_only_measure_panic "\"\"" 100 [⟨quoteTok, ""⟩] measurePanicMsg scanEmptyQuoteAtEOF

/-- Claim C1, counterexample: dedenting from the stack [0, 4] to width 2 emits
exactly ONE dedent token before the inconsistent-dedent error, not two as the
claim states: only one level (4) is popped before the loop stops at the base
entry 0. -/
theorem C1_cex :
    scan "a\n    b\n  c" 100 =
      ([⟨identTok, "a"⟩, ⟨indentTok, "    "⟩, ⟨identTok, "b"⟩, ⟨dedentTok, "  "⟩,
        ⟨ErrorTok, "Inconsistent dedent. Expecting 0 but found 2."⟩], .errored) ∧
    countType dedentTok
      [⟨identTok, "a"⟩, ⟨indentTok, "    "⟩, ⟨identTok, "b"⟩, ⟨dedentTok, "  "⟩,
        ⟨ErrorTok, "Inconsistent dedent. Expecting 0 but found 2."⟩] = 1 :=
  ⟨scanInconsistentDedent, rfl⟩

/-- Claim C1, amended: when the measured width is below the stack top,
`updateIndent` pops the stack while the width is less than the current top,
emitting exactly one dedent token per pop, and terminates with the
inconsistent-dedent error exactly when the final top does not equal the width;
for a line of width 2 against the stack [0, 4] (top first: `[4, 0]`) this
pops ONE level, emitting one dedent token, and errors with "Inconsistent
dedent. Expecting 0 but found 2." -/
theorem C1_amended (l : Lex) (stk : List Nat) (size : Nat)
    (hm : measure 0 l.current = some size) (hok : stackOK stk)
    (hlt : size < stk.headD 0) :
    (∃ l' ts,
      (∀ t ∈ ts, t.type = dedentTok) ∧
      ts.length = (stk.takeWhile (fun x => decide (size < x))).length ∧
      (((stk.dropWhile (fun x => decide (size < x))).headD 0 = size ∧
         updateIndent l (some stk) =
           .ok l' (stk.dropWhile (fun x => decide (size < x))) ts) ∨
       ((stk.dropWhile (fun x => decide (size < x))).headD 0 < size ∧
         updateIndent l (some stk) = .err ts
           ("Inconsistent dedent. Expecting " ++
             toString ((stk.dropWhile (fun x => decide (size < x))).headD 0) ++
             " but found " ++ toString size ++ ".")))) ∧
    scan "a\n    b\n  c" 100 =
      ([⟨identTok, "a"⟩, ⟨indentTok, "    "⟩, ⟨identTok, "b"⟩, ⟨dedentTok, "  "⟩,
        ⟨ErrorTok, "Inconsistent dedent. Expecting 0 but found 2."⟩], .errored) := by
  refine ⟨?_, scanInconsistentDedent⟩
  cases hstk : stk with
  | nil =>
    rw [hstk] at hok
    exact absurd rfl hok.1
  | cons peek rest =>
    subst hstk
    have hind : (some (peek :: rest)).getD [0] = peek :: rest := rfl
    have hlt' : size < peek := by simpa using hlt
    obtain ⟨l', ts, hrun, htypes, hlen, hl'⟩ := dedentLoop_spec size (peek :: rest) l [] hok
    rw [List.nil_append] at hrun
    have hok' := dropWhile_stackOK size hok
    have hhead := dropWhile_head_le size (peek :: rest) hok'.1
    by_cases heq2 : ((peek :: rest).dropWhile (fun x => decide (size < x))).headD 0 = size
    · refine ⟨l', ts, htypes, hlen, Or.inl ⟨heq2, ?_⟩⟩
      rw [updateIndent_eq_less hm hind hlt' hrun, if_neg (by omega)]
    · refine ⟨l', ts, htypes, hlen, Or.inr ⟨by omega, ?_⟩⟩
      rw [updateIndent_eq_less hm hind hlt' hrun, if_pos (by omega)]

/-- Witness for C1_amended: a pending text of width 2 against the stack
[0, 4] (top first: `[4, 0]`) — one pop, one dedent token, then the error
"Inconsistent dedent. Expecting 0 but found 2." -/
theorem C1_amended_witness :
    (∃ l' ts,
      (∀ t ∈ ts, t.type = dedentTok) ∧
      ts.length = (([4, 0] : List Nat).takeWhile (fun x => decide (2 < x))).length ∧
      (((([4, 0] : List Nat).dropWhile (fun x => decide (2 < x))).headD 0 = 2 ∧
         updateIndent ⟨[' ', ' '], 0, 2, false⟩ (some [4, 0]) =
           .ok l' (([4, 0] : List Nat).dropWhile (fun x => decide (2 < x))) ts) ∨
       ((([4, 0] : List Nat).dropWhile (fun x => decide (2 < x))).headD 0 < 2 ∧
         updateIndent ⟨[' ', ' '], 0, 2, false⟩ (some [4, 0]) = .err ts
           ("Inconsistent dedent. Expecting " ++
             toString ((([4, 0] : List Nat).dropWhile (fun x => decide (2 < x))).headD 0) ++
             " but found " ++ toString (2 : Nat) ++ ".")))) ∧
    scan "a\n    b\n  c" 100 =
      ([⟨identTok, "a"⟩, ⟨indentTok, "    "⟩, ⟨identTok, "b"⟩, ⟨dedentTok, "  "⟩,
        ⟨ErrorTok, "Inconsistent dedent. Expecting 0 but found 2."⟩], .errored) :=
  C1_amended ⟨[' ', ' '], 0, 2, false⟩ [4, 0] 2 (by decide)
    ⟨by decide, by decide, by simp⟩ (by decide)

/-- Claim C10: a literal NUL character reaching the Outer dispatch state
matches the end-of-input sentinel branch (both are rune 0) after having been
consumed as a real rune, so the final indentation measurement runs on a
pending text containing the NUL and panics ("Bad rune found in indent"); no
error token is emitted for it and the characters after the NUL are never
scanned — on `"a\x00b("`, only the identifier `a` is emitted and neither `b`
nor the `(` is ever tokenized. -/
theorem C10_nul_reaches_measure_panic :
    (∀ (l : Lex) (st : Option (List Nat)), l.wf → l.atEOF = false →
      l.start = l.position → l.source.get? l.position = some '\x00' →
      step .outer ⟨l, st⟩ = .panicStep measurePanicMsg []) ∧
    scan "a\x00b(" 100 = ([⟨identTok, "a"⟩], .panicked measurePanicMsg) := by
  refine ⟨?_, scanNulOuter⟩
  intro l st hwf he hsp hg
  have hnext : l.next = some ('\x00', { l with position := l.position + 1 }) := by
    unfold Lex.next
    rw [hg]
  obtain ⟨g, hgas⟩ : ∃ g, l.m = g + 1 := by
    have := Lex.m_pos he
    exact ⟨l.m - 1, by omega⟩
  have hnone : measure 0 ({ l with position := l.position + 1 } : Lex).current = none := by
    rw [Lex.current_consume hwf hg, Lex.current_empty_of_eq hsp, List.nil_append]
    rfl
  show outerLoop st l.m l [] = _
  rw [hgas]
  simp only [outerLoop, hnext]
  rw [if_neg (by decide), if_neg (by decide), if_neg (by decide), if_neg (by decide),
    if_neg (by decide), if_neg (by decide), if_neg (by decide), if_neg (by decide),
    if_neg (by decide), if_neg (by decide), if_neg (by decide)]
  simp only [updateIndent_eq_none hnone]
  rw [if_pos (by decide)]
  rfl

/-- Witness for the universal part of C10 at a concrete configuration whose
next rune is a literal NUL. -/
theorem C10_witness :
    step .outer ⟨⟨['\x00', 'Z'], 0, 0, false⟩, none⟩ = .panicStep measurePanicMsg [] :=
  C10_nul_reaches_measure_panic.1 ⟨['\x00', 'Z'], 0, 0, false⟩ none
    ⟨by decide, by decide⟩ rfl rfl (by decide)

end Dtdx
